import Mathlib

/-!
Verification of the dawgpyl agent-orchestration core.

The Python source (libs/core.py, libs/agents.py, libs/teams.py, libs/common.py)
is shallowly embedded here.  Conventions of the embedding:

* Python values that flow through message logs, configs and parsed model
  responses are modelled by the inductive type `PVal` (None, bool, int, str,
  list, dict with string keys).  Dict subscription raises `KeyError` on a
  missing key and `TypeError` on a non-dict receiver, exactly as in CPython.
* Exceptions are modelled with `Except PyErr` (for expressions) or with a
  `state × Option PyErr` pair for statement sequences, so that the partial
  mutations a Python exception leaves behind are preserved.
* The mutable object graph (Project → Teams → Agents with back references)
  is a single heap in the source: every `member.team`, `team.project`
  reference aliases the unique owning object.  The embedding therefore uses
  an arena: `ProjectState` owns `TeamState`s which own `AgentState`s, and
  agents are addressed by (team index, member index).  The source's
  `push_team_updates` / `push_project_updates` re-anchoring steps write the
  very same references back and are the identity in this representation.
* Each `MessageLog` entry in the source is a dict
  `{"timestamp": Timestamp().iso, "message": m}`.  The timestamp comes from
  the wall clock, is never branched on by any modelled code path and is not
  mentioned by any claim, so an entry is represented by its message payload
  alone; the `last = {}` initial sentinel is represented by `Option.none`.
* The `Event`/`Log` audit trail is write-only from the orchestration logic's
  point of view (it is only appended to and searched by external callers),
  so it is omitted from the state.
* External collaborators are oracles: `json.loads` becomes
  `loads : String → Option PVal` (`Option.none` = a raised decode error),
  `eval` of a prompt-parameter reference expression becomes an
  oracle from the live state, and the model client's `invoke` becomes
  `String → Except PyErr FullResponse`.
-/

namespace Dawgpyl

/-- Python runtime errors that the modelled code can raise or catch. -/
inductive PyErr where
  | keyError
  | typeError
  | valueError
  | attributeError
deriving DecidableEq

deriving instance DecidableEq for Except

/-- Model of the Python values handled by the orchestration core:
None, bool, int, str, list, and dict with string keys. -/
inductive PVal where
  | pnone
  | pbool (b : Bool)
  | pint (n : Int)
  | pstr (s : String)
  | plist (xs : List PVal)
  | pdict (kvs : List (String × PVal))

mutual

/-- Structural equality test on `PVal` (Python `==` restricted to the
value forms the core exchanges; cross-type comparisons are unequal). -/
def PVal.beq : PVal → PVal → Bool
  | .pnone, .pnone => true
  | .pbool a, .pbool b => a == b
  | .pint a, .pint b => a == b
  | .pstr a, .pstr b => a == b
  | .plist xs, .plist ys => PVal.beqList xs ys
  | .pdict xs, .pdict ys => PVal.beqKvs xs ys
  | _, _ => false

/-- Elementwise equality of `PVal` lists. -/
def PVal.beqList : List PVal → List PVal → Bool
  | [], [] => true
  | x :: xs, y :: ys => PVal.beq x y && PVal.beqList xs ys
  | _, _ => false

/-- Pairwise equality of dict entry lists. -/
def PVal.beqKvs : List (String × PVal) → List (String × PVal) → Bool
  | [], [] => true
  | (k, v) :: xs, (l, w) :: ys => k == l && PVal.beq v w && PVal.beqKvs xs ys
  | _, _ => false

end

instance : BEq PVal := ⟨PVal.beq⟩

mutual

theorem PVal.beq_refl : (a : PVal) → PVal.beq a a = true
  | .pnone => by simp [PVal.beq]
  | .pbool b => by simp [PVal.beq]
  | .pint n => by simp [PVal.beq]
  | .pstr s => by simp [PVal.beq]
  | .plist xs => by simpa [PVal.beq] using PVal.beqList_refl xs
  | .pdict xs => by simpa [PVal.beq] using PVal.beqKvs_refl xs

theorem PVal.beqList_refl : (xs : List PVal) → PVal.beqList xs xs = true
  | [] => by simp [PVal.beqList]
  | x :: xs => by simp [PVal.beqList, PVal.beq_refl x, PVal.beqList_refl xs]

theorem PVal.beqKvs_refl : (xs : List (String × PVal)) → PVal.beqKvs xs xs = true
  | [] => by simp [PVal.beqKvs]
  | (k, v) :: xs => by simp [PVal.beqKvs, PVal.beq_refl v, PVal.beqKvs_refl xs]

end

mutual

theorem PVal.eq_of_beq : (a b : PVal) → PVal.beq a b = true → a = b
  | .pnone, b, h => by cases b <;> simp_all [PVal.beq]
  | .pbool x, b, h => by cases b <;> simp_all [PVal.beq]
  | .pint x, b, h => by cases b <;> simp_all [PVal.beq]
  | .pstr x, b, h => by cases b <;> simp_all [PVal.beq]
  | .plist xs, b, h => by
    cases b with
    | plist ys =>
      have h2 : PVal.beqList xs ys = true := by simpa [PVal.beq] using h
      exact congrArg PVal.plist (PVal.eqList_of_beq xs ys h2)
    | pnone => simp [PVal.beq] at h
    | pbool y => simp [PVal.beq] at h
    | pint y => simp [PVal.beq] at h
    | pstr y => simp [PVal.beq] at h
    | pdict ys => simp [PVal.beq] at h
  | .pdict xs, b, h => by
    cases b with
    | pdict ys =>
      have h2 : PVal.beqKvs xs ys = true := by simpa [PVal.beq] using h
      exact congrArg PVal.pdict (PVal.eqKvs_of_beq xs ys h2)
    | pnone => simp [PVal.beq] at h
    | pbool y => simp [PVal.beq] at h
    | pint y => simp [PVal.beq] at h
    | pstr y => simp [PVal.beq] at h
    | plist ys => simp [PVal.beq] at h

theorem PVal.eqList_of_beq : (xs ys : List PVal) → PVal.beqList xs ys = true → xs = ys
  | [], [], _ => rfl
  | [], _ :: _, h => by simp [PVal.beqList] at h
  | _ :: _, [], h => by simp [PVal.beqList] at h
  | x :: xs, y :: ys, h => by
    have h2 : PVal.beq x y = true ∧ PVal.beqList xs ys = true := by
      simpa [PVal.beqList, Bool.and_eq_true] using h
    rw [PVal.eq_of_beq x y h2.1, PVal.eqList_of_beq xs ys h2.2]

theorem PVal.eqKvs_of_beq :
    (xs ys : List (String × PVal)) → PVal.beqKvs xs ys = true → xs = ys
  | [], [], _ => rfl
  | [], _ :: _, h => by simp [PVal.beqKvs] at h
  | _ :: _, [], h => by simp [PVal.beqKvs] at h
  | (k, v) :: xs, (l, w) :: ys, h => by
    have h2 : (k == l) = true ∧ PVal.beq v w = true ∧ PVal.beqKvs xs ys = true := by
      simpa [PVal.beqKvs, Bool.and_eq_true, and_assoc] using h
    have hk : k = l := by simpa using h2.1
    rw [hk, PVal.eq_of_beq v w h2.2.1, PVal.eqKvs_of_beq xs ys h2.2.2]

end

instance : LawfulBEq PVal where
  eq_of_beq h := PVal.eq_of_beq _ _ h
  rfl := PVal.beq_refl _

instance : DecidableEq PVal := fun a b =>
  decidable_of_iff (PVal.beq a b = true)
    ⟨PVal.eq_of_beq a b, fun h => h ▸ PVal.beq_refl a⟩

/-- `d[k]` for an insertion-ordered dict represented as an association list. -/
def alGet {β : Type} (kvs : List (String × β)) (k : String) : Option β :=
  match kvs.find? (fun p => p.1 == k) with
  | some p => some p.2
  | none => none

/-- `d[k] = v`: overwrite in place if the key exists, else append
(CPython dicts keep insertion order). -/
def alSet {β : Type} (kvs : List (String × β)) (k : String) (v : β) : List (String × β) :=
  if (kvs.find? (fun p => p.1 == k)).isSome then
    kvs.map (fun p => if p.1 == k then (k, v) else p)
  else
    kvs ++ [(k, v)]

/-- Python truthiness (`bool(v)`). -/
def PVal.truthy : PVal → Bool
  | .pnone => false
  | .pbool b => b
  | .pint n => n != 0
  | .pstr s => s ≠ ""
  | .plist xs => !xs.isEmpty
  | .pdict kvs => !kvs.isEmpty

/-- Python subscription `v[k]` with a string key: `KeyError` on a missing
dict key, `TypeError` on every non-dict receiver (including strings, where
`s["k"]` is a TypeError because string indices must be integers). -/
def PVal.subscript : PVal → String → Except PyErr PVal
  | .pdict kvs, k =>
    match alGet kvs k with
    | some v => .ok v
    | none => .error .keyError
  | _, _ => .error .typeError

/-- Python `len(v)`: `TypeError` for None/bool/int. -/
def PVal.pyLen : PVal → Except PyErr Nat
  | .pstr s => .ok s.length
  | .plist xs => .ok xs.length
  | .pdict kvs => .ok kvs.length
  | _ => .error .typeError

/-- Python `v.get(k)` (dicts only; any other receiver has no `get`
attribute and raises `AttributeError`). A missing key yields None. -/
def PVal.pyGet : PVal → String → Except PyErr PVal
  | .pdict kvs, k => .ok ((alGet kvs k).getD .pnone)
  | _, _ => .error .attributeError

/-- Does the character list `s` start with the character list `pat`? -/
def charsStartWith : List Char → List Char → Bool
  | _, [] => true
  | [], _ :: _ => false
  | c :: cs, d :: ds => c == d && charsStartWith cs ds

/-- Substring test over the underlying character lists. -/
def charsContain : List Char → List Char → Bool
  | [], pat => pat.isEmpty
  | s@(_ :: cs), pat => charsStartWith s pat || charsContain cs pat

/-- Python `pat in s` for strings (substring containment). -/
def strContains (s pat : String) : Bool :=
  charsContain s.data pat.data

/-- Python `needle in v` for a string needle: substring test on strings,
key test on dicts, element test on lists, `TypeError` otherwise. -/
def pyContains (needle : String) : PVal → Except PyErr Bool
  | .pstr s => .ok (strContains s needle)
  | .pdict kvs => .ok (kvs.any (fun p => p.1 == needle))
  | .plist xs => .ok (xs.any (fun x => x == .pstr needle))
  | _ => .error .typeError

/-- The ASCII apostrophe, kept out of string literals. -/
def apos : String := String.singleton (Char.ofNat 39)

mutual

/-- `repr(v)` as used by `str()` on containers.  Python's string-escape
rules inside `repr` are simplified to plain quoting; no modelled code
branches on the rendered text. -/
def PVal.pyRepr : PVal → String
  | .pnone => "None"
  | .pbool true => "True"
  | .pbool false => "False"
  | .pint n => toString n
  | .pstr s => apos ++ s ++ apos
  | .plist xs => "[" ++ PVal.pyReprElems xs ++ "]"
  | .pdict kvs => "\x7b" ++ PVal.pyReprPairs kvs ++ "\x7d"

/-- Comma-joined `repr`s of list elements. -/
def PVal.pyReprElems : List PVal → String
  | [] => ""
  | [x] => PVal.pyRepr x
  | x :: xs => PVal.pyRepr x ++ ", " ++ PVal.pyReprElems xs

/-- Comma-joined `repr`s of dict entries. -/
def PVal.pyReprPairs : List (String × PVal) → String
  | [] => ""
  | [(k, v)] => apos ++ k ++ apos ++ ": " ++ PVal.pyRepr v
  | (k, v) :: xs => apos ++ k ++ apos ++ ": " ++ PVal.pyRepr v ++ ", " ++ PVal.pyReprPairs xs

end

/-- `str(v)`: identity on strings, `repr`-style rendering otherwise. -/
def PVal.pyStr : PVal → String
  | .pstr s => s
  | v => v.pyRepr

/-! ### MessageLog and TeamMessageLog (libs/core.py `MessageLog`, `TeamMessageLog`)

A source `MessageLog` keeps `history` (list of `{timestamp, message}` dicts),
`last` (initially the empty dict `{}`) and `last_message`
(`self.last["message"] or None`).  Entries are represented by their message
payload; `last = Option.none` encodes the `{}` sentinel, under which
`self.inputs.last["message"]` raises `KeyError` exactly as in the source. -/

structure MessageLog where
  history : List PVal
  last : Option PVal
  last_message : PVal
deriving DecidableEq

/-- `MessageLog.__init__`: empty history, `last = {}`, `last_message = None`. -/
def MessageLog.init : MessageLog :=
  { history := [], last := Option.none, last_message := PVal.pnone }

/-- `MessageLog.add_message` followed by `update_last`
(`self.last_message = self.last["message"] or None`: a falsy payload is
replaced by None). -/
def MessageLog.add_message (ml : MessageLog) (m : PVal) : MessageLog :=
  { history := ml.history ++ [m]
    last := some m
    last_message := if m.truthy then m else PVal.pnone }

/-- `TeamMessageLog`: member-name-keyed aggregate views over children
(`history` maps a member name to that member's whole history, `last` to its
last entry). -/
structure TeamMessageLog where
  history : List (String × List PVal)
  last : List (String × PVal)
deriving DecidableEq

/-- `TeamMessageLog.__init__`. -/
def TeamMessageLog.init : TeamMessageLog := { history := [], last := [] }

/-! ### Agent (libs/agents.py)

`AgentConfig` keeps the fields the orchestration logic reads.  The model
descriptor and the generation parameters (`seed`, `temperature`, `top_p`,
`max_tokens`, `max_retries`, `timeout`, tools) are passed through to the
external model client at construction time and never read by the modelled
control flow, so they are not part of the state. -/

structure AgentConfig where
  priority : Int
  needs_review : Bool
  prompt_params : List String
  prompt_arg_vals : List (String × PVal)
  prompt_template : String
  response_format : PVal
  response_template : PVal
deriving DecidableEq

/-- Agent state (libs/agents.py `Agent.__init__`).  The `task`, `model`,
`tools`, `teammates` and the Event log are never read by the modelled
control flow; the `team`/`project` back references are realised by the
arena addressing (team index, member index). -/
structure AgentState where
  name : String
  config : AgentConfig
  needs_review : Bool
  finished : Bool
  inputs : MessageLog
  outputs : MessageLog
  prompt : Option String
  final_answer : PVal
  status : List (String × String)
deriving DecidableEq

/-- `Agent.__init__(name)` with the already-resolved config (the source
resolves `AgentConfig(agent_config or name)` from the AGENTS catalog;
catalog resolution is an external table lookup and is a parameter here). -/
def Agent.mk_agent (name : String) (cfg : AgentConfig) : AgentState :=
  { name := name
    config := cfg
    needs_review := cfg.needs_review
    finished := false
    inputs := MessageLog.init
    outputs := MessageLog.init
    prompt := Option.none
    final_answer := PVal.pnone
    status := [(name, "agent initialized")] }

/-- `Agent.change_status`: overwrite `self.status[self.name]`. -/
def AgentState.change_status (a : AgentState) (s : String) : AgentState :=
  { a with status := alSet a.status a.name s }

/-- Python `s.replace(pat, rep)` over the character lists, scanning left
to right without overlap.  The fuel argument (`length + 1` at the top
level) makes the recursion structural. -/
def charsReplace : Nat → List Char → List Char → List Char → List Char
  | 0, _, _, _ => []
  | _ + 1, [], _, _ => []
  | fuel + 1, c :: cs, pat, rep =>
    if pat ≠ [] ∧ charsStartWith (c :: cs) pat then
      rep ++ charsReplace fuel ((c :: cs).drop pat.length) pat rep
    else
      c :: charsReplace fuel cs pat rep

/-- Python `s.replace(pat, rep)`. -/
def strReplace (s pat rep : String) : String :=
  String.mk (charsReplace (s.data.length + 1) s.data pat.data rep.data)

/-- `strip_self_refs` (libs/agents.py): periods become underscores. -/
def strip_self_refs (self_reference : String) : String :=
  strReplace self_reference "." "_"

/-! ### Team (libs/teams.py) -/

structure TeamState where
  name : String
  leader : String
  members : List AgentState
  members_finished : List String
  goal : PVal
  inputs : TeamMessageLog
  outputs : TeamMessageLog
  final_answers : List (String × PVal)
deriving DecidableEq

/-- `Team.add_member`: append `Agent(agent2add)`. -/
def Team.add_member (catalog : String → AgentConfig) (t : TeamState)
    (agent2add : String) : TeamState :=
  { t with members := t.members ++ [Agent.mk_agent agent2add (catalog agent2add)] }

/-- `Team.add_reviewer`: append `Agent(name=f"{agent2review}_reviewer",
agent_config="reviewer")` — the reviewer's config always comes from the
fixed `"reviewer"` catalog entry. -/
def Team.add_reviewer (catalog : String → AgentConfig) (t : TeamState)
    (agent2review : String) : TeamState :=
  { t with members :=
      t.members ++ [Agent.mk_agent (agent2review ++ "_reviewer") (catalog "reviewer")] }

/-- `Team.assemble_team`: walk the configured member names in order, add
each as an Agent, and if the agent just appended (`self.members[-1]`) needs
review, immediately add its paired reviewer. -/
def Team.assemble_team (catalog : String → AgentConfig) (t : TeamState)
    (cfgMembers : List String) : TeamState :=
  cfgMembers.foldl
    (fun t member =>
      let t := Team.add_member catalog t member
      if (t.members.getLast?.map (fun a => a.needs_review)).getD false then
        Team.add_reviewer catalog t member
      else t)
    t

/-- `Team.fetch_member_names`. -/
def Team.fetch_member_names (t : TeamState) : List String :=
  t.members.map (fun a => a.name)

/-- `Team.get_member_index`: `list.index` raises `ValueError` when the name
is absent. -/
def Team.get_member_index (t : TeamState) (member_name : String) : Except PyErr Nat :=
  match (Team.fetch_member_names t).indexOf? member_name with
  | some i => .ok i
  | Option.none => .error .valueError

/-- `Team.check_finished(member_name)`: look the member up by name and
report its `finished` latch as the string `"True"` / `"False"`. -/
def Team.check_finished (t : TeamState) (member_name : String) : Except PyErr String :=
  match Team.get_member_index t member_name with
  | .error e => .error e
  | .ok i =>
    match t.members[i]? with
    | some a => .ok (if a.finished then "True" else "False")
    | Option.none => .error .valueError

/-- The conditional-edge runnable `check_member_finished` closed over the
team (libs/graphs.py): membership of the member name in
`team.members_finished`. -/
def check_member_finished (t : TeamState) (member_name : String) : String :=
  if member_name ∈ t.members_finished then "True" else "False"

/-- The routing table `{"True": next_member, "False": f"{member_name}_reviewer"}`
attached by `add_conditional_edges`. -/
def conditional_route (next_member reviewer_node verdict : String) : Option String :=
  if verdict = "True" then some next_member
  else if verdict = "False" then some reviewer_node
  else Option.none

/-! ### Team.update and its three phases (libs/teams.py 181-232) -/

/-- One iteration of the `fetch_updates` loop for member `m`: project the
member's histories and last entries into the team views, then
`if member.final_answer and len(member.final_answer) > 0` — the `and`
short-circuits on falsy values, and `len` raises `TypeError` on a
non-sized payload (None/bool/int). -/
def Team.fetch_updates_step (t : TeamState) (m : AgentState) : TeamState × Option PyErr :=
  let t := if m.inputs.history.isEmpty then t
    else { t with inputs := { t.inputs with history := alSet t.inputs.history m.name m.inputs.history } }
  let t := match m.inputs.last with
    | some e => { t with inputs := { t.inputs with last := alSet t.inputs.last m.name e } }
    | Option.none => t
  let t := if m.outputs.history.isEmpty then t
    else { t with outputs := { t.outputs with history := alSet t.outputs.history m.name m.outputs.history } }
  let t := match m.outputs.last with
    | some e => { t with outputs := { t.outputs with last := alSet t.outputs.last m.name e } }
    | Option.none => t
  if m.final_answer.truthy then
    match m.final_answer.pyLen with
    | .error e => (t, some e)
    | .ok n =>
      (if n > 0 then { t with final_answers := alSet t.final_answers m.name m.final_answer }
       else t, Option.none)
  else (t, Option.none)

/-- The `fetch_updates` loop over the member list, stopping at the first
uncaught exception. -/
def Team.fetch_updates_go : List AgentState → TeamState → TeamState × Option PyErr
  | [], t => (t, Option.none)
  | m :: ms, t =>
    match Team.fetch_updates_step t m with
    | (t, some e) => (t, some e)
    | (t, Option.none) => Team.fetch_updates_go ms t

/-- `Team.fetch_updates`. -/
def Team.fetch_updates (t : TeamState) : TeamState × Option PyErr :=
  Team.fetch_updates_go t.members t

/-- The fixed prefix of the introduction message that `push_reviews` and
the driver loop filter on (`"Hello! I'm on team"`). -/
def greeting_marker : String := "Hello! I" ++ apos ++ "m on team"

/-- One iteration of the `push_reviews` loop.  The source guards are:
`if self.outputs.last:` (truthiness of the whole aggregate dict), then
`if self.outputs.last.get(f"{member.name}_reviewer", None):` — the stored
entry is a `{timestamp, message}` dict so presence implies truthiness —
then `"Hello! I'm on team" not in reviewer_message`, where `in` on a
None/bool/int payload raises `TypeError`. -/
def Team.push_reviews_step (outputs_last : List (String × PVal)) (m : AgentState) :
    AgentState × Option PyErr :=
  if outputs_last.isEmpty then (m, Option.none)
  else
    match alGet outputs_last (m.name ++ "_reviewer") with
    | Option.none => (m, Option.none)
    | some reviewer_message =>
      match pyContains greeting_marker reviewer_message with
      | .error e => (m, some e)
      | .ok is_greeting =>
        if is_greeting then (m, Option.none)
        else ({ m with inputs := m.inputs.add_message reviewer_message }, Option.none)

/-- The `push_reviews` loop over the member list. -/
def Team.push_reviews_go (outputs_last : List (String × PVal)) :
    List AgentState → List AgentState × Option PyErr
  | [] => ([], Option.none)
  | m :: ms =>
    match Team.push_reviews_step outputs_last m with
    | (m, some e) => (m :: ms, some e)
    | (m, Option.none) =>
      match Team.push_reviews_go outputs_last ms with
      | (ms, e) => (m :: ms, e)

/-- `Team.push_reviews`.  `self.outputs.last` is not modified inside the
loop, so the snapshot read at entry is what every iteration sees. -/
def Team.push_reviews (t : TeamState) : TeamState × Option PyErr :=
  match Team.push_reviews_go t.outputs.last t.members with
  | (ms, e) => ({ t with members := ms }, e)

/-- `Team.push_team_updates` writes `self` back into every member's `team`
reference; all those references alias the one team object, so in the arena
representation this is the identity. -/
def Team.push_team_updates (t : TeamState) : TeamState := t

/-- `Team.update`: `fetch_updates`; `push_reviews`; `push_team_updates`,
stopping at the first uncaught exception. -/
def Team.update (t : TeamState) : TeamState × Option PyErr :=
  match Team.fetch_updates t with
  | (t, some e) => (t, some e)
  | (t, Option.none) =>
    match Team.push_reviews t with
    | (t, some e) => (t, some e)
    | (t, Option.none) => (Team.push_team_updates t, Option.none)

/-! ### parse_agent_response (libs/common.py 99-124) -/

/-- The extraction
`response_content.get("properties").get("response").get("description")`
that both the `type == "string"` and the `type == "object"` branches
perform verbatim. -/
def schema_description (response_content : PVal) : Except PyErr PVal :=
  match response_content.pyGet "properties" with
  | .error e => .error e
  | .ok props =>
    match props.pyGet "response" with
    | .error e => .error e
    | .ok resp =>
      match resp.pyGet "description" with
      | .error e => .error e
      | .ok desc => .ok desc

/-- The body of `parse_agent_response`'s `try` block for the
`"json_object"` format.  `json.loads` is the external oracle `loads`
(`Option.none` = a raised JSONDecodeError); `.get` on a non-dict raises
`AttributeError`; every raise is caught by the enclosing `except`. -/
def parse_response_body (loads : String → Option PVal) (content : String) :
    Except PyErr PVal :=
  match loads content with
  | Option.none => .error .valueError
  | some response_content =>
    match response_content.pyGet "response" with
    | .error e => .error e
    | .ok r =>
      if r.truthy then .ok r
      else
        match response_content.pyGet "type" with
        | .error e => .error e
        | .ok ty =>
          if ty == PVal.pstr "string" then schema_description response_content
          else if ty == PVal.pstr "object" then schema_description response_content
          else .ok (PVal.pstr content)

/-- `parse_agent_response(full_response, expected_response_type)`: for the
`"json_object"` format, run the parse body and degrade any exception to
the raw content; every other format passes the raw content through. -/
def parse_agent_response (loads : String → Option PVal) (full_response_content : String)
    (expected_response_type : PVal) : PVal :=
  if expected_response_type == PVal.pstr "json_object" then
    match parse_response_body loads full_response_content with
    | .ok message => message
    | .error _ => PVal.pstr full_response_content
  else PVal.pstr full_response_content

/-! ### fetch_prompt_arg_vals / format_prompt (libs/agents.py 162-180) -/

/-- `empty_data_types[type(arg_val)]`: the substitution table is keyed by
exactly four types (str, list, dict, NoneType); any other type raises
`KeyError`. -/
def empty_of_type : PVal → Option PVal
  | .pstr _ => some (PVal.pstr "")
  | .plist _ => some (PVal.plist [])
  | .pdict _ => some (PVal.pdict [])
  | .pnone => some PVal.pnone
  | _ => Option.none

/-- The `for arg in self.config.prompt_params` loop: evaluate the
reference expression (external `eval`, oracle `evalRef`), replace an
empty value of an accepted type by the literal `"None"`, and bind under
the flattened name.  `empty_data_types[type(arg_val)]` is evaluated before
the comparison, so a bool/int value raises `KeyError` regardless of the
comparison's outcome. -/
def fetch_prompt_arg_vals_go (evalRef : String → Except PyErr PVal)
    (acc : List (String × PVal)) :
    List String → Except PyErr (List (String × PVal))
  | [] => .ok acc
  | arg :: rest =>
    match evalRef arg with
    | .error e => .error e
    | .ok arg_val =>
      match empty_of_type arg_val with
      | Option.none => .error .keyError
      | some empty_val =>
        let arg_val := if arg_val == empty_val then PVal.pstr "None" else arg_val
        fetch_prompt_arg_vals_go evalRef (alSet acc (strip_self_refs arg) arg_val) rest

/-- `Agent.fetch_prompt_arg_vals`: reset the table to `{}` and refill it. -/
def fetch_prompt_arg_vals (evalRef : String → Except PyErr PVal)
    (prompt_params : List String) : Except PyErr (List (String × PVal)) :=
  fetch_prompt_arg_vals_go evalRef [] prompt_params

def lbrace : Char := Char.ofNat 123

def rbrace : Char := Char.ofNat 125

mutual

/-- `str.format(**kwargs)` over the template's characters: `{{`/`}}`
escape to a literal brace, `{name}` substitutes `str(kwargs[name])`
(raising `KeyError` when unbound), and a stray brace is a ValueError.
The fuel argument (`length + 1` at the top level, each step consumes at
least one character) makes the recursion structural. -/
def fmtGo (vals : List (String × PVal)) : Nat → List Char → Except PyErr (List Char)
  | 0, _ => .error .valueError
  | _ + 1, [] => .ok []
  | fuel + 1, c :: cs =>
    if c = lbrace then
      match cs with
      | [] => .error .valueError
      | c2 :: cs2 =>
        if c2 = lbrace then
          match fmtGo vals fuel cs2 with
          | .ok out => .ok (lbrace :: out)
          | .error e => .error e
        else fmtName vals fuel [] (c2 :: cs2)
    else if c = rbrace then
      match cs with
      | [] => .error .valueError
      | c2 :: cs2 =>
        if c2 = rbrace then
          match fmtGo vals fuel cs2 with
          | .ok out => .ok (rbrace :: out)
          | .error e => .error e
        else .error .valueError
    else
      match fmtGo vals fuel cs with
      | .ok out => .ok (c :: out)
      | .error e => .error e

/-- Scan a `{name}` placeholder (simple names only, which is all the
catalog templates use). -/
def fmtName (vals : List (String × PVal)) : Nat → List Char → List Char →
    Except PyErr (List Char)
  | 0, _, _ => .error .valueError
  | _ + 1, _, [] => .error .valueError
  | fuel + 1, acc, c :: cs =>
    if c = rbrace then
      match alGet vals (String.mk acc.reverse) with
      | Option.none => .error .keyError
      | some v =>
        match fmtGo vals fuel cs with
        | .ok out => .ok ((PVal.pyStr v).data ++ out)
        | .error e => .error e
    else fmtName vals fuel (c :: acc) cs

end

/-- `template.format(**kwargs)`. -/
def pyFormat (template : String) (vals : List (String × PVal)) :
    Except PyErr String :=
  match fmtGo vals (template.data.length + 1) template.data with
  | .ok out => .ok (String.mk out)
  | .error e => .error e

/-- `Agent.format_prompt`: `fetch_prompt_arg_vals` then render the
template.  On an exception the partially filled table is unobservable
(the next call resets it to `{}` before any read), so it is represented
as empty. -/
def Agent.format_prompt (evalRef : String → Except PyErr PVal) (a : AgentState) :
    AgentState × Option PyErr :=
  match fetch_prompt_arg_vals evalRef a.config.prompt_params with
  | .error e => ({ a with config := { a.config with prompt_arg_vals := [] } }, some e)
  | .ok vals =>
    let a := { a with config := { a.config with prompt_arg_vals := vals } }
    match pyFormat a.config.prompt_template vals with
    | .error e => (a, some e)
    | .ok out => ({ a with prompt := some out }, Option.none)

/-! ### Project (libs/core.py `Project`) -/

/-- Project-level `TeamMessageLog`: keys are team names, values are whole
team views. -/
structure ProjectViews where
  history : List (String × List (String × List PVal))
  last : List (String × List (String × PVal))
deriving DecidableEq

structure ProjectState where
  name : String
  manager : String
  goal : PVal
  plan : PVal
  teams : List TeamState
  inputs : ProjectViews
  outputs : ProjectViews
  final_answers : List (String × List (String × PVal))
deriving DecidableEq

/-- `Project.fetch_final_answers`: copy every team's non-empty
`final_answers` dict under the team name. -/
def Project.fetch_final_answers (p : ProjectState) : ProjectState :=
  p.teams.foldl
    (fun p t =>
      if t.final_answers.isEmpty then p
      else { p with final_answers := alSet p.final_answers t.name t.final_answers })
    p

/-- One iteration of the `Project.update` loop for the team at index `i`:
`team.update()`, then merge the team's views into the project views, then
`self.fetch_final_answers()` (the source calls the full helper, which
rescans every team, inside the loop). -/
def Project.update_team_step (p : ProjectState) (i : Nat) : ProjectState × Option PyErr :=
  match p.teams[i]? with
  | Option.none => (p, Option.none)
  | some t =>
    match Team.update t with
    | (t, some e) => ({ p with teams := p.teams.set i t }, some e)
    | (t, Option.none) =>
      let p := { p with teams := p.teams.set i t }
      let p := if t.inputs.history.isEmpty then p
        else { p with inputs := { p.inputs with history := alSet p.inputs.history t.name t.inputs.history } }
      let p := if t.inputs.last.isEmpty then p
        else { p with inputs := { p.inputs with last := alSet p.inputs.last t.name t.inputs.last } }
      let p := if t.outputs.history.isEmpty then p
        else { p with outputs := { p.outputs with history := alSet p.outputs.history t.name t.outputs.history } }
      let p := if t.outputs.last.isEmpty then p
        else { p with outputs := { p.outputs with last := alSet p.outputs.last t.name t.outputs.last } }
      (Project.fetch_final_answers p, Option.none)

/-- The `Project.update` loop over team indices. -/
def Project.update_go (p : ProjectState) : List Nat → ProjectState × Option PyErr
  | [] => (p, Option.none)
  | i :: rest =>
    match Project.update_team_step p i with
    | (p, some e) => (p, some e)
    | (p, Option.none) => Project.update_go p rest

/-- `Project.push_project_updates` re-anchors `team.project` and
`member.project` aliases; identity in the arena representation. -/
def Project.push_project_updates (p : ProjectState) : ProjectState := p

/-- `Project.update`. -/
def Project.update (p : ProjectState) : ProjectState × Option PyErr :=
  match Project.update_go p (List.range p.teams.length) with
  | (p, e) => (Project.push_project_updates p, e)

/-! ### Arena addressing helpers -/

/-- The agent at (team index, member index). -/
def ProjectState.agent? (p : ProjectState) (ti mi : Nat) : Option AgentState :=
  match p.teams[ti]? with
  | some t => t.members[mi]?
  | Option.none => Option.none

def TeamState.setMember (t : TeamState) (mi : Nat) (a : AgentState) : TeamState :=
  { t with members := t.members.set mi a }

def ProjectState.setTeam (p : ProjectState) (ti : Nat) (t : TeamState) : ProjectState :=
  { p with teams := p.teams.set ti t }

def ProjectState.setAgent (p : ProjectState) (ti mi : Nat) (a : AgentState) : ProjectState :=
  match p.teams[ti]? with
  | some t => p.setTeam ti (t.setMember mi a)
  | Option.none => p

def ProjectState.modifyAgent (p : ProjectState) (ti mi : Nat)
    (f : AgentState → AgentState) : ProjectState :=
  match p.agent? ti mi with
  | some a => p.setAgent ti mi (f a)
  | Option.none => p

/-- `self.team.update()` through the member's team alias. -/
def ProjectState.team_update (p : ProjectState) (ti : Nat) : ProjectState × Option PyErr :=
  match p.teams[ti]? with
  | Option.none => (p, Option.none)
  | some t =>
    match Team.update t with
    | (t, e) => (p.setTeam ti t, e)

/-! ### Agent.check_finished / fetch_content_for_review / invoke
(libs/agents.py 207-284) -/

/-- `Agent.check_finished` for the agent at (ti, mi).  The `try` block
catches `KeyError` only: an empty `inputs.last` (`{}["message"]`) and a
dict message without `"pass_review"` both degrade to `"False"`, and so
does `{}["message"]` on `outputs.last` inside the latch branch (raised
before any assignment).  A non-dict latest message — e.g. a plain string —
raises an uncaught `TypeError` from `msg["pass_review"]`. -/
def Agent.check_finished (p : ProjectState) (ti mi : Nat) :
    ProjectState × Except PyErr String :=
  match p.teams[ti]? with
  | Option.none => (p, .ok "False")
  | some t =>
    match t.members[mi]? with
    | Option.none => (p, .ok "False")
    | some a =>
      match a.inputs.last with
      | Option.none => (p, .ok "False")
      | some msg =>
        match msg with
        | .pdict kvs =>
          match alGet kvs "pass_review" with
          | Option.none => (p, .ok "False")
          | some pr =>
            if pr.truthy then
              match a.outputs.last with
              | Option.none => (p, .ok "False")
              | some outMsg =>
                let a := { a with final_answer := outMsg }
                let a := a.change_status "finished"
                let a := { a with finished := true }
                let t := t.setMember mi a
                let t := { t with members_finished := t.members_finished ++ [a.name] }
                (p.setTeam ti t, .ok "True")
            else (p, .ok "False")
        | _ => (p, .error .typeError)

/-- `Agent.fetch_content_for_review`: a reviewer pulls the submission under
review from the team output view keyed by the base name; a missing key is
caught (`KeyError`) and only printed. -/
def Agent.fetch_content_for_review (p : ProjectState) (ti mi : Nat) : ProjectState :=
  match p.teams[ti]?, p.agent? ti mi with
  | some t, some a =>
    if strContains a.name "_reviewer" then
      let agent2review := strReplace a.name "_reviewer" ""
      match alGet t.outputs.last agent2review with
      | some entry => p.setAgent ti mi { a with inputs := a.inputs.add_message entry }
      | Option.none => p
    else p
  | _, _ => p

/-- The model client's reply: raw text content plus response metadata
(`token_usage` lives in `response_metadata`). -/
structure FullResponse where
  content : String
  response_metadata : List (String × PVal)

/-- The external collaborators `invoke` interacts with: `json.loads`,
`eval` of a prompt-parameter reference against the live state, and the
provider-backed model client. -/
structure Env where
  loads : String → Option PVal
  evalRef : ProjectState → Nat → Nat → String → Except PyErr PVal
  model_invoke : String → Except PyErr FullResponse

/-- `Agent.format_prompt` for the agent at (ti, mi), with the `eval`
oracle closed over the current live state. -/
def Agent.format_prompt_at (env : Env) (p : ProjectState) (ti mi : Nat) :
    ProjectState × Option PyErr :=
  match p.agent? ti mi with
  | Option.none => (p, Option.none)
  | some a =>
    match Agent.format_prompt (env.evalRef p ti mi) a with
    | (a, e) => (p.setAgent ti mi a, e)

/-- `Agent.invoke` for the agent at (ti, mi).  Returns the updated state,
the number of model-client invocations issued during the call (0 or 1),
and the uncaught exception if any (partial mutations preserved).
The unreachable `Option.none` branch after `outputs.add_message` (the log
was just appended to) leaves the agent unchanged. -/
def Agent.invoke (env : Env) (p : ProjectState) (ti mi : Nat) :
    ProjectState × Nat × Option PyErr :=
  match Agent.check_finished p ti mi with
  | (p, .error e) => (p, 0, some e)
  | (p, .ok _) =>
    match p.agent? ti mi with
    | Option.none => (p, 0, Option.none)
    | some a =>
      if a.finished then
        match p.team_update ti with
        | (p, some e) => (p, 0, some e)
        | (p, Option.none) =>
          match Project.update p with
          | (p, e) => (p, 0, e)
      else
        match p.team_update ti with
        | (p, some e) => (p, 0, some e)
        | (p, Option.none) =>
        match Project.update p with
        | (p, some e) => (p, 0, some e)
        | (p, Option.none) =>
        let p := Agent.fetch_content_for_review p ti mi
        let p := p.modifyAgent ti mi (fun a => a.change_status "invoked")
        match Agent.format_prompt_at env p ti mi with
        | (p, some e) => (p, 0, some e)
        | (p, Option.none) =>
        let promptText := ((p.agent? ti mi).bind (fun a => a.prompt)).getD ""
        match env.model_invoke promptText with
        | .error e => (p, 1, some e)
        | .ok full_response =>
        match (((p.agent? ti mi).map (fun a => a.config.response_format)).getD
            PVal.pnone).subscript "type" with
        | .error e => (p, 1, some e)
        | .ok expected_response_type =>
        let message := parse_agent_response env.loads full_response.content
          expected_response_type
        match (PVal.pdict full_response.response_metadata).subscript "token_usage" with
        | .error e => (p, 1, some e)
        | .ok _ =>
        let p := p.modifyAgent ti mi (fun a =>
          { a with outputs := a.outputs.add_message message })
        let p := p.modifyAgent ti mi (fun a => a.change_status "responded")
        let p := p.modifyAgent ti mi (fun a =>
          if a.needs_review then a
          else
            match a.outputs.last with
            | some m =>
              let a := { a with final_answer := m }
              let a := a.change_status "finished"
              { a with finished := true }
            | Option.none => a)
        match p.team_update ti with
        | (p, some e) => (p, 1, some e)
        | (p, Option.none) =>
        match Project.update p with
        | (p, e) => (p, 1, e)

end Dawgpyl

namespace Dawgpyl

/-! ### Concrete fixtures used by witnesses and counterexamples -/

/-- A minimal catalog entry for an agent that does not need review: no
prompt parameters, a placeholder-free template, and a `json_object`
response format. -/
def cfgPlain : AgentConfig :=
  { priority := 1
    needs_review := false
    prompt_params := []
    prompt_arg_vals := []
    prompt_template := "hello"
    response_format := PVal.pdict [("type", PVal.pstr "json_object")]
    response_template := PVal.pdict [] }

/-- The same entry with `needs_review = True`. -/
def cfgReviewed : AgentConfig := { cfgPlain with needs_review := true }

def agentSolo : AgentState := Agent.mk_agent "solo" cfgPlain

def teamSolo : TeamState :=
  { name := "alpha", leader := "solo", members := [agentSolo], members_finished := []
    goal := PVal.pnone, inputs := TeamMessageLog.init, outputs := TeamMessageLog.init
    final_answers := [] }

def projSolo : ProjectState :=
  { name := "proj", manager := "m", goal := PVal.pstr "g", plan := PVal.pnone
    teams := [teamSolo], inputs := ⟨[], []⟩, outputs := ⟨[], []⟩, final_answers := [] }

/-- An environment whose model client succeeds with content `"hi"` (which
does not decode as JSON) and reports a `token_usage`. -/
def envOk : Env :=
  { loads := fun _ => Option.none
    evalRef := fun _ _ _ _ => Except.ok PVal.pnone
    model_invoke := fun _ => Except.ok ⟨"hi", [("token_usage", PVal.pdict [])]⟩ }

/-- A solo agent whose latest input is a plain string (as the review
channel delivers when the reviewer's reply fell back to raw text). -/
def agentStr : AgentState :=
  { agentSolo with inputs := MessageLog.init.add_message (PVal.pstr "fix the intro") }

def teamStr : TeamState := { teamSolo with members := [agentStr] }

def projStr : ProjectState := { projSolo with teams := [teamStr] }

def reviewMsg : PVal := PVal.pstr "needs more citations"

def agentWriter : AgentState := Agent.mk_agent "writer" cfgReviewed

/-- The writer's paired reviewer, which has already produced one
(non-greeting) review. -/
def agentWReviewer : AgentState :=
  { (Agent.mk_agent "writer_reviewer" cfgPlain) with
      outputs := MessageLog.init.add_message reviewMsg }

def teamWr : TeamState :=
  { teamSolo with members := [agentWriter, agentWReviewer] }

/-! ## Claim C8: parse_agent_response (libs/common.py 99-124) -/

/-- C8.  `parse_agent_response` never raises: every exception inside the
`try` body (decode failure, `.get` on a non-dict) is caught and degrades
to the raw content; a non-`"json_object"` format passes the raw content
through; a JSON object with a truthy top-level `response` key yields that
value; with a falsy/absent `response` key and a `type` of `"string"` or
`"object"`, the schema-shaped `properties.response.description` chain is
extracted when it succeeds. -/
theorem parse_agent_response_total_spec
    (loads : String → Option PVal) (content : String) (expected : PVal) :
    (expected ≠ PVal.pstr "json_object" →
      parse_agent_response loads content expected = PVal.pstr content)
    ∧ (loads content = Option.none →
      parse_agent_response loads content (PVal.pstr "json_object") = PVal.pstr content)
    ∧ (∀ kvs r, loads content = some (PVal.pdict kvs) →
      alGet kvs "response" = some r → r.truthy = true →
      parse_agent_response loads content (PVal.pstr "json_object") = r)
    ∧ (∀ kvs d, loads content = some (PVal.pdict kvs) →
      ((alGet kvs "response").getD PVal.pnone).truthy = false →
      (alGet kvs "type" = some (PVal.pstr "string") ∨
        alGet kvs "type" = some (PVal.pstr "object")) →
      schema_description (PVal.pdict kvs) = Except.ok d →
      parse_agent_response loads content (PVal.pstr "json_object") = d)
    ∧ (∀ e, parse_response_body loads content = Except.error e →
      parse_agent_response loads content (PVal.pstr "json_object") = PVal.pstr content) := by
  refine ⟨?_, ?_, ?_, ?_, ?_⟩
  · intro hne
    simp [parse_agent_response, hne]
  · intro hl
    simp [parse_agent_response, parse_response_body, hl]
  · intro kvs r hl hr htr
    simp [parse_agent_response, parse_response_body, hl, PVal.pyGet, hr, htr]
  · intro kvs d hl hfalsy hty hchain
    have hok : parse_response_body loads content = Except.ok d := by
      simp only [parse_response_body, hl, PVal.pyGet, hfalsy]
      rcases hty with hty | hty <;> simp [hty, hfalsy, hchain]
    simp [parse_agent_response, hok]
  · intro e herr
    simp [parse_agent_response, herr]

/-- C8 witness: at a content string whose decode fails, the raw text is
passed through. -/
theorem parse_agent_response_total_spec_witness :
    parse_agent_response (fun _ => Option.none) "not json" (PVal.pstr "json_object") =
      PVal.pstr "not json" :=
  (parse_agent_response_total_spec (fun _ => Option.none) "not json"
    (PVal.pstr "json_object")).2.1 rfl

/-! ## Claim C9: fetch_prompt_arg_vals type table (libs/agents.py 162-175) -/

/-- The `fetch_prompt_arg_vals` loop raises `KeyError` whatever the
accumulator, once some parameter value has a type outside the
substitution table. -/
theorem fetch_prompt_arg_vals_go_keyerror
    (evalRef : String → Except PyErr PVal) :
    ∀ (params : List String) (acc : List (String × PVal)),
    (∀ arg ∈ params, ∃ v, evalRef arg = .ok v) →
    (∃ arg ∈ params, ∃ v, evalRef arg = .ok v ∧ empty_of_type v = Option.none) →
    fetch_prompt_arg_vals_go evalRef acc params = .error .keyError := by
  intro params
  induction params with
  | nil => intro acc _ hbad; simp at hbad
  | cons arg rest ih =>
    intro acc hev hbad
    obtain ⟨v, hv⟩ := hev arg (by simp)
    rcases hbad with ⟨barg, hbmem, bv, hbv, hbnone⟩
    simp only [fetch_prompt_arg_vals_go, hv]
    rcases List.mem_cons.mp hbmem with heq | hrest
    · subst heq
      rw [hv] at hbv
      cases hbv
      rw [hbnone]
    · cases hcase : empty_of_type v with
      | none => rfl
      | some ev =>
        exact ih _ (fun a ha => hev a (by simp [ha]))
          ⟨barg, hrest, bv, hbv, hbnone⟩

/-- The loop succeeds whatever the accumulator when every parameter value
has a type in the substitution table. -/
theorem fetch_prompt_arg_vals_go_ok
    (evalRef : String → Except PyErr PVal) :
    ∀ (params : List String) (acc : List (String × PVal)),
    (∀ arg ∈ params, ∃ v, evalRef arg = .ok v ∧ (empty_of_type v).isSome) →
    ∃ vals, fetch_prompt_arg_vals_go evalRef acc params = .ok vals := by
  intro params
  induction params with
  | nil => intro acc _; exact ⟨acc, rfl⟩
  | cons arg rest ih =>
    intro acc hev
    obtain ⟨v, hv, hsome⟩ := hev arg (by simp)
    obtain ⟨ev, hev2⟩ := Option.isSome_iff_exists.mp hsome
    simp only [fetch_prompt_arg_vals_go, hv, hev2]
    exact ih _ (fun a ha => hev a (by simp [ha]))

/-- C9.  `Agent.fetch_prompt_arg_vals` indexes the empty-value table by
`type(arg_val)` with no guard, so a parameter value of any type other
than str, list, dict or NoneType (e.g. an int or a bool) raises
`KeyError`, and `format_prompt` propagates it; values drawn only from the
four accepted types never trip this lookup. -/
theorem fetch_prompt_arg_vals_type_table
    (evalRef : String → Except PyErr PVal) (a : AgentState)
    (hev : ∀ arg ∈ a.config.prompt_params, ∃ v, evalRef arg = .ok v)
    (hbad : ∃ arg ∈ a.config.prompt_params, ∃ v,
      evalRef arg = .ok v ∧ empty_of_type v = Option.none) :
    fetch_prompt_arg_vals evalRef a.config.prompt_params = .error .keyError
    ∧ (Agent.format_prompt evalRef a).2 = some .keyError
    ∧ (∀ (params : List String),
        (∀ arg ∈ params, ∃ v, evalRef arg = .ok v ∧ (empty_of_type v).isSome) →
        ∃ vals, fetch_prompt_arg_vals evalRef params = .ok vals) := by
  have hmain := fetch_prompt_arg_vals_go_keyerror evalRef a.config.prompt_params [] hev hbad
  refine ⟨hmain, ?_, ?_⟩
  · simp only [Agent.format_prompt, fetch_prompt_arg_vals] at hmain ⊢
    rw [hmain]
  · intro params hok
    exact fetch_prompt_arg_vals_go_ok evalRef params [] hok

/-- C9 witness: a single parameter evaluating to the int 7 trips the
table lookup. -/
theorem fetch_prompt_arg_vals_type_table_witness :
    fetch_prompt_arg_vals (fun _ => .ok (PVal.pint 7))
      (Agent.mk_agent "solo"
        { priority := 1, needs_review := false, prompt_params := ["self.team.goal"]
          prompt_arg_vals := [], prompt_template := "x"
          response_format := PVal.pnone
          response_template := PVal.pnone }).config.prompt_params =
      .error .keyError :=
  (fetch_prompt_arg_vals_type_table (fun _ => .ok (PVal.pint 7)) _
    (fun _ _ => ⟨PVal.pint 7, rfl⟩)
    ⟨"self.team.goal", by simp [Agent.mk_agent], PVal.pint 7, rfl, rfl⟩).1

/-! ## Claim C6: Team.assemble_team (libs/teams.py 110-161) -/

/-- C6.  `assemble_team` walks the configured member list in order,
instantiates each name as an Agent with its own catalog config, and
whenever the agent just appended needs review, immediately appends a
reviewer named `base + "_reviewer"` whose config is resolved from the
fixed `"reviewer"` catalog entry. -/
theorem assemble_team_spec (catalog : String → AgentConfig) (t : TeamState)
    (cfgMembers : List String) :
    (Team.assemble_team catalog t cfgMembers).members =
      t.members ++ cfgMembers.flatMap (fun m =>
        if (catalog m).needs_review then
          [Agent.mk_agent m (catalog m),
           Agent.mk_agent (m ++ "_reviewer") (catalog "reviewer")]
        else [Agent.mk_agent m (catalog m)]) := by
  induction cfgMembers generalizing t with
  | nil => simp [Team.assemble_team]
  | cons m rest ih =>
    simp only [Team.assemble_team, List.foldl_cons] at ih ⊢
    rw [List.flatMap_cons]
    by_cases hnr : (catalog m).needs_review
    · have hlast :
        ((Team.add_member catalog t m).members.getLast?.map
          (fun a => a.needs_review)).getD false = (catalog m).needs_review := by
        simp [Team.add_member, Agent.mk_agent, List.getLast?_concat]
      rw [hlast, if_pos hnr, ih]
      simp [Team.add_reviewer, Team.add_member, hnr, Agent.mk_agent]
    · have hlast :
        ((Team.add_member catalog t m).members.getLast?.map
          (fun a => a.needs_review)).getD false = (catalog m).needs_review := by
        simp [Team.add_member, Agent.mk_agent, List.getLast?_concat]
      rw [hlast, if_neg hnr, ih]
      simp [Team.add_member, hnr, Agent.mk_agent]

/-! ## Claim C5: Team aggregate views are additive (libs/teams.py 181-195) -/

/-- A dict write never removes a key. -/
theorem alSet_keys_sub {β : Type} (kvs : List (String × β)) (k : String) (v : β) :
    kvs.map Prod.fst ⊆ (alSet kvs k v).map Prod.fst := by
  unfold alSet
  split
  · have heq : (kvs.map (fun p => if p.1 == k then (k, v) else p)).map Prod.fst =
        kvs.map Prod.fst := by
      rw [List.map_map]
      apply List.map_congr_left
      intro p _
      by_cases h : p.1 = k
      · simp [h]
      · simp [h]
    rw [heq]
    exact List.Subset.refl _
  · intro x hx
    simp only [List.map_append]
    exact List.mem_append_left _ hx

/-- `fetch_updates_step` only adds keys to the outputs view. -/
theorem fetch_updates_step_keys_outputs (t : TeamState) (m : AgentState) :
    t.outputs.history.map Prod.fst ⊆
      ((Team.fetch_updates_step t m).1).outputs.history.map Prod.fst := by
  unfold Team.fetch_updates_step
  repeat' split
  all_goals simp_all [alSet_keys_sub, List.Subset.refl]

/-- `fetch_updates_step` only adds keys to the inputs view. -/
theorem fetch_updates_step_keys_inputs (t : TeamState) (m : AgentState) :
    t.inputs.history.map Prod.fst ⊆
      ((Team.fetch_updates_step t m).1).inputs.history.map Prod.fst := by
  unfold Team.fetch_updates_step
  repeat' split
  all_goals simp_all [alSet_keys_sub, List.Subset.refl]

/-- `fetch_updates_step` only adds keys to the final-answers view. -/
theorem fetch_updates_step_keys_final (t : TeamState) (m : AgentState) :
    t.final_answers.map Prod.fst ⊆
      ((Team.fetch_updates_step t m).1).final_answers.map Prod.fst := by
  unfold Team.fetch_updates_step
  repeat' split
  all_goals simp_all [alSet_keys_sub, List.Subset.refl]

/-- The whole `fetch_updates` loop only adds keys, whether or not it
stops at an exception. -/
theorem fetch_updates_go_keys (ms : List AgentState) :
    ∀ t : TeamState,
    t.outputs.history.map Prod.fst ⊆
      ((Team.fetch_updates_go ms t).1).outputs.history.map Prod.fst ∧
    t.inputs.history.map Prod.fst ⊆
      ((Team.fetch_updates_go ms t).1).inputs.history.map Prod.fst ∧
    t.final_answers.map Prod.fst ⊆
      ((Team.fetch_updates_go ms t).1).final_answers.map Prod.fst := by
  induction ms with
  | nil => intro t; exact ⟨List.Subset.refl _, List.Subset.refl _, List.Subset.refl _⟩
  | cons m ms ih =>
    intro t
    simp only [Team.fetch_updates_go]
    cases hstep : Team.fetch_updates_step t m with
    | mk t1 e =>
      have h1 : t.outputs.history.map Prod.fst ⊆ t1.outputs.history.map Prod.fst := by
        have := fetch_updates_step_keys_outputs t m; rwa [hstep] at this
      have h2 : t.inputs.history.map Prod.fst ⊆ t1.inputs.history.map Prod.fst := by
        have := fetch_updates_step_keys_inputs t m; rwa [hstep] at this
      have h3 : t.final_answers.map Prod.fst ⊆ t1.final_answers.map Prod.fst := by
        have := fetch_updates_step_keys_final t m; rwa [hstep] at this
      cases e with
      | some err => exact ⟨h1, h2, h3⟩
      | none =>
        obtain ⟨g1, g2, g3⟩ := ih t1
        exact ⟨h1.trans g1, h2.trans g2, h3.trans g3⟩

/-- `push_reviews` writes only into members; the team-level views are
untouched. -/
theorem push_reviews_fields (t : TeamState) :
    ((Team.push_reviews t).1).inputs = t.inputs ∧
    ((Team.push_reviews t).1).outputs = t.outputs ∧
    ((Team.push_reviews t).1).final_answers = t.final_answers ∧
    ((Team.push_reviews t).1).members_finished = t.members_finished ∧
    ((Team.push_reviews t).1).name = t.name := by
  unfold Team.push_reviews
  split
  simp_all

/-- C5.  Across a `Team.update()` call — even one cut short by an
exception — the key sets of `Team.outputs.history`, `Team.inputs.history`
and `Team.final_answers` never lose a member name: the views are merged
additively and never delete existing entries. -/
theorem team_update_aggregate_keys_monotone (t : TeamState) :
    t.outputs.history.map Prod.fst ⊆ ((Team.update t).1).outputs.history.map Prod.fst ∧
    t.inputs.history.map Prod.fst ⊆ ((Team.update t).1).inputs.history.map Prod.fst ∧
    t.final_answers.map Prod.fst ⊆ ((Team.update t).1).final_answers.map Prod.fst := by
  have hkeys := fetch_updates_go_keys t.members t
  unfold Team.update
  split
  · rename_i t1 err hf
    rw [show Team.fetch_updates t = Team.fetch_updates_go t.members t from rfl] at hf
    rw [hf] at hkeys
    simpa using hkeys
  · rename_i t1 hf
    rw [show Team.fetch_updates t = Team.fetch_updates_go t.members t from rfl] at hf
    rw [hf] at hkeys
    simp only [] at hkeys
    have hfields := push_reviews_fields t1
    split
    · rename_i t2 err hp
      rw [hp] at hfields
      simp only [] at hfields
      refine ⟨?_, ?_, ?_⟩
      · simpa [hfields.2.1] using hkeys.1
      · simpa [hfields.1] using hkeys.2.1
      · simpa [hfields.2.2.1] using hkeys.2.2
    · rename_i t2 hp
      rw [hp] at hfields
      simp only [] at hfields
      refine ⟨?_, ?_, ?_⟩
      · simpa [Team.push_team_updates, hfields.2.1] using hkeys.1
      · simpa [Team.push_team_updates, hfields.1] using hkeys.2.1
      · simpa [Team.push_team_updates, hfields.2.2.1] using hkeys.2.2

/-- C5 witness: a concrete team view key survives an update. -/
theorem team_update_aggregate_keys_monotone_witness :
    "writer" ∈
      ((Team.update
        { name := "alpha", leader := "writer", members := [], members_finished := []
          goal := PVal.pnone
          inputs := TeamMessageLog.init
          outputs := { history := [("writer", [PVal.pstr "draft"])], last := [] }
          final_answers := [] }).1).outputs.history.map Prod.fst :=
  (team_update_aggregate_keys_monotone _).1 (by decide)

/-! ## Claim C3: check_finished on absent pass_review (libs/agents.py 207-223) -/

/-- C3 counterexample.  The claim includes the plain-string case among the
inputs that degrade silently, but `check_finished` only catches
`KeyError`: a plain-string latest input makes `msg["pass_review"]` raise
`TypeError`, which escapes `check_finished` (and `invoke`). -/
theorem check_finished_string_input_raises :
    (Agent.check_finished projStr 0 0).2 = Except.error PyErr.typeError
    ∧ (Agent.invoke envOk projStr 0 0).2.2 = some PyErr.typeError :=
  ⟨rfl, rfl⟩

/-- C3 (amended).  When the latest inputs entry is absent (`last = {}`)
or is a dict without a `"pass_review"` key, `check_finished` raises
nothing, latches nothing, and returns `"False"` with the state unchanged;
a non-dict latest message (e.g. a plain string) instead raises
`TypeError` because only `KeyError` is caught. -/
theorem check_finished_soft_absence (p : ProjectState) (ti mi : Nat) (a : AgentState)
    (ha : p.agent? ti mi = some a)
    (hsoft : a.inputs.last = Option.none ∨
      ∃ kvs, a.inputs.last = some (PVal.pdict kvs) ∧ alGet kvs "pass_review" = Option.none) :
    Agent.check_finished p ti mi = (p, Except.ok "False") := by
  unfold Agent.check_finished
  unfold ProjectState.agent? at ha
  cases hti : p.teams[ti]? with
  | none => rw [hti] at ha
  | some t =>
    rw [hti] at ha
    simp only [] at ha ⊢
    cases hmi : t.members[mi]? with
    | none => rw [hmi] at ha
    | some a2 =>
      rw [hmi] at ha
      simp only [] at ha ⊢
      cases ha
      rcases hsoft with hnone | ⟨kvs, hlast, hkey⟩
      · rw [hnone]
      · rw [hlast]
        simp only []
        rw [hkey]

/-- C3 witness: a fresh agent with an empty inputs log. -/
theorem check_finished_soft_absence_witness :
    Agent.check_finished projSolo 0 0 = (projSolo, Except.ok "False") :=
  check_finished_soft_absence projSolo 0 0 agentSolo rfl (Or.inl rfl)

/-! ## Claim C7: the conditional-edge predicate vs Team.check_finished
(libs/graphs.py 57-76, libs/teams.py 136-150) -/

/-- The state invariant tying the two finished signals together: for
every reviewed member, the `finished` latch and membership of the
member's name in `members_finished` are written only together (both in
`Agent.check_finished`'s latch branch; the `needs_review = False` latch
inside `invoke` does not touch reviewed members). -/
def ReviewSync (t : TeamState) : Prop :=
  ∀ a ∈ t.members, a.needs_review = true →
    (a.finished = true ↔ a.name ∈ t.members_finished)

/-- Find a member in a duplicate-free roster by name: `list.index`
returns the position of the member itself. -/
theorem indexOf_names_nodup (ms : List AgentState) (a : AgentState)
    (hmem : a ∈ ms) (hnodup : (ms.map (fun x => x.name)).Nodup) :
    ∃ i, (ms.map (fun x => x.name)).indexOf? a.name = some i ∧ ms[i]? = some a := by
  induction ms with
  | nil => cases hmem
  | cons b rest ih =>
    simp only [List.map_cons, List.nodup_cons] at hnodup
    by_cases hname : b.name = a.name
    · have hab : a = b := by
        rcases List.mem_cons.mp hmem with h | h
        · exact h
        · have hb : b.name ∈ rest.map (fun x => x.name) := by
            rw [hname]; exact List.mem_map_of_mem (fun x => x.name) h
          exact absurd hb hnodup.1
      refine ⟨0, ?_, by simp [hab]⟩
      rw [List.map_cons, List.indexOf?_cons]
      simp [hname]
    · have hrest : a ∈ rest := by
        rcases List.mem_cons.mp hmem with h | h
        · exact absurd (congrArg (fun x => x.name) h.symm) hname
        · exact h
      obtain ⟨i, hidx, hget⟩ := ih hrest hnodup.2
      refine ⟨i + 1, ?_, by simpa using hget⟩
      rw [List.map_cons, List.indexOf?_cons]
      simp [hname, hidx]

/-- C7.  Under the `ReviewSync` invariant and a duplicate-free member
roster, the graph's conditional-edge predicate (`check_member_finished`,
membership in `team.members_finished`) returns `"True"` exactly when
`Team.check_finished` (the member's `finished` latch) does, and the
attached routing table sends control to the next member when the member
is finished and to its reviewer node otherwise. -/
theorem conditional_edge_agrees_with_latch (t : TeamState) (a : AgentState)
    (hmem : a ∈ t.members) (hnr : a.needs_review = true)
    (hnodup : (t.members.map (fun x => x.name)).Nodup)
    (hsync : ReviewSync t) :
    (check_member_finished t a.name = "True" ↔
      Team.check_finished t a.name = Except.ok "True")
    ∧ (∀ next_member : String,
        conditional_route next_member (a.name ++ "_reviewer")
            (check_member_finished t a.name) =
          if a.finished then some next_member else some (a.name ++ "_reviewer")) := by
  obtain ⟨i, hidx, hget⟩ := indexOf_names_nodup t.members a hmem hnodup
  have hcheck : Team.check_finished t a.name =
      Except.ok (if a.finished then "True" else "False") := by
    unfold Team.check_finished Team.get_member_index Team.fetch_member_names
    rw [hidx]
    simp only []
    rw [hget]
  have hpred : check_member_finished t a.name =
      if a.finished then "True" else "False" := by
    unfold check_member_finished
    by_cases hf : a.finished
    · rw [if_pos ((hsync a hmem hnr).mp hf), if_pos hf]
    · rw [if_neg (fun hc => hf ((hsync a hmem hnr).mpr hc)), if_neg hf]
  constructor
  · rw [hcheck, hpred]
    by_cases hf : a.finished <;> simp [hf]
  · intro next_member
    rw [hpred]
    by_cases hf : a.finished <;> simp [hf, conditional_route]

/-- C7 witness: an unfinished reviewed writer routes to its reviewer, and
both finished signals agree. -/
theorem conditional_edge_agrees_with_latch_witness :
    ((check_member_finished teamWr "writer" = "True" ↔
      Team.check_finished teamWr "writer" = Except.ok "True")
    ∧ (∀ next_member : String,
        conditional_route next_member ("writer" ++ "_reviewer")
            (check_member_finished teamWr "writer") =
          if agentWriter.finished then some next_member
          else some ("writer" ++ "_reviewer"))) :=
  conditional_edge_agrees_with_latch teamWr agentWriter (by decide) (by decide)
    (by decide) (by unfold ReviewSync; decide)

/-! ## Claim C4: push_reviews (libs/teams.py 197-208, 226-232) -/

/-- C4 counterexample.  `teamWr`'s reviewer produced one review before the
first tick; the first `update()` pushes it into the writer's inputs, and
the second `update()` — with no new reviewer output — appends the very
same message again: an output already pushed on a previous tick is pushed
on every later tick as well, because `push_reviews` deduplicates nothing. -/
theorem push_reviews_duplicates_counterexample :
    (((Team.update teamWr).1.members[0]?).map (fun a => a.inputs.history)
        = some [reviewMsg])
    ∧ (((Team.update (Team.update teamWr).1).1.members[0]?).map
        (fun a => a.inputs.history) = some [reviewMsg, reviewMsg]) := by
  constructor
  · decide
  · decide

/-- When the `push_reviews` loop runs to completion, each member is
exactly its own loop step applied to the snapshot of the output view. -/
theorem push_reviews_go_get (o : List (String × PVal)) (ms : List AgentState) :
    (Team.push_reviews_go o ms).2 = Option.none →
    ∀ bi : Nat, (Team.push_reviews_go o ms).1[bi]? =
      (ms[bi]?).map (fun m => (Team.push_reviews_step o m).1) := by
  induction ms with
  | nil => intro _ bi; simp [Team.push_reviews_go]
  | cons m ms ih =>
    intro hok bi
    simp only [Team.push_reviews_go] at hok ⊢
    cases hstep : Team.push_reviews_step o m with
    | mk m1 e1 =>
      rw [hstep] at hok
      cases e1 with
      | some err => simp at hok
      | none =>
        simp only [] at hok ⊢
        cases bi with
        | zero => simp [hstep]
        | succ bj => simpa using ih hok bj

/-- C4 (amended).  During `Team.update`, `push_reviews` appends the
paired reviewer's message to a base member's inputs exactly when the
team output view (refreshed by `fetch_updates` in the same call) holds an
entry under `base + "_reviewer"` whose message does not contain the
greeting marker — regardless of the tick in which the reviewer produced
it, so the same output is appended again on every subsequent update. -/
theorem push_reviews_appends_whenever_present (t : TeamState) (bi : Nat)
    (b : AgentState) (hb : t.members[bi]? = some b)
    (hok : (Team.push_reviews t).2 = Option.none) :
    (∀ v, alGet t.outputs.last (b.name ++ "_reviewer") = some v →
      pyContains greeting_marker v = Except.ok false →
      (Team.push_reviews t).1.members[bi]? =
        some { b with inputs := b.inputs.add_message v })
    ∧ (alGet t.outputs.last (b.name ++ "_reviewer") = Option.none →
      (Team.push_reviews t).1.members[bi]? = some b)
    ∧ (∀ v, alGet t.outputs.last (b.name ++ "_reviewer") = some v →
      pyContains greeting_marker v = Except.ok true →
      (Team.push_reviews t).1.members[bi]? = some b) := by
  have hgo : (Team.push_reviews_go t.outputs.last t.members).2 = Option.none := by
    unfold Team.push_reviews at hok
    cases hg : Team.push_reviews_go t.outputs.last t.members with
    | mk ms e => rw [hg] at hok; simpa using hok
  have hmem : (Team.push_reviews t).1.members =
      (Team.push_reviews_go t.outputs.last t.members).1 := by
    unfold Team.push_reviews
    cases hg : Team.push_reviews_go t.outputs.last t.members with
    | mk ms e => rfl
  have hget := push_reviews_go_get t.outputs.last t.members hgo bi
  rw [hb] at hget
  rw [hmem, hget]
  have hne : ∀ v, alGet t.outputs.last (b.name ++ "_reviewer") = some v →
      t.outputs.last.isEmpty = false := by
    intro v hv
    cases hemp : t.outputs.last with
    | nil => rw [hemp] at hv; simp [alGet] at hv
    | cons x xs => rfl
  refine ⟨?_, ?_, ?_⟩
  · intro v hv hng
    simp [Team.push_reviews_step, hne v hv, hv, hng]
  · intro hv
    by_cases hemp : t.outputs.last.isEmpty
    · simp [Team.push_reviews_step, hemp]
    · simp [Team.push_reviews_step, hemp, hv]
  · intro v hv hng
    simp [Team.push_reviews_step, hne v hv, hv, hng]

/-- C4 witness: with the reviewer's message sitting in the output view,
one pass of `push_reviews` appends it to the writer's inputs. -/
theorem push_reviews_appends_whenever_present_witness :
    (Team.push_reviews
      { teamWr with outputs :=
          { history := [("writer_reviewer", [reviewMsg])]
            last := [("writer_reviewer", reviewMsg)] } }).1.members[0]? =
      some { agentWriter with inputs := agentWriter.inputs.add_message reviewMsg } :=
  (push_reviews_appends_whenever_present _ 0 agentWriter (by decide) (by decide)).1
    reviewMsg (by decide) (by decide)

/-! ## Core-field preservation through the update machinery

`Team.update`, `Project.update`, `fetch_content_for_review`,
`change_status` and `format_prompt` may write an agent's `inputs`,
`status`, `prompt` and `config.prompt_arg_vals`, but never its `name`,
`needs_review`, `finished`, `outputs` or `final_answer`, and never a
team's `members_finished`.  These lemmas capture that for the claims
about `invoke`. -/

/-- The agent fields the update machinery never writes. -/
def AgentState.core (a : AgentState) : String × Bool × Bool × MessageLog × PVal :=
  (a.name, a.needs_review, a.finished, a.outputs, a.final_answer)

/-- Per-team view of everything the update machinery must preserve. -/
def TeamState.coreView (t : TeamState) :
    List String × List (String × Bool × Bool × MessageLog × PVal) :=
  (t.members_finished, t.members.map AgentState.core)

def ProjectState.coreView (p : ProjectState) :
    List (List String × List (String × Bool × Bool × MessageLog × PVal)) :=
  p.teams.map TeamState.coreView

/-- Writing back an element whose image under `f` is unchanged leaves the
mapped list unchanged. -/
theorem list_map_set_invariant {α β : Type} (f : α → β) (ts : List α) (i : Nat) (a : α)
    (h : (ts[i]?).map f = some (f a)) :
    (ts.set i a).map f = ts.map f := by
  rw [List.map_set]
  apply List.ext_getElem?
  intro j
  by_cases hj : i = j
  · subst hj
    cases hg : ts[i]? with
    | none => rw [hg] at h; simp at h
    | some u =>
      rw [hg] at h
      simp only [Option.map_some'] at h
      have hlt : i < ts.length := (List.getElem?_eq_some_iff.mp hg).1
      rw [List.getElem?_set_self (by simpa using hlt), List.getElem?_map, hg]
      simp only [Option.map_some']
      exact congrArg some (Option.some.inj h).symm
  · rw [List.getElem?_set_ne hj]

theorem push_reviews_step_core (o : List (String × PVal)) (m : AgentState) :
    ((Team.push_reviews_step o m).1).core = m.core := by
  unfold Team.push_reviews_step
  repeat' split
  all_goals rfl

theorem push_reviews_go_core (o : List (String × PVal)) (ms : List AgentState) :
    ((Team.push_reviews_go o ms).1).map AgentState.core = ms.map AgentState.core := by
  induction ms with
  | nil => rfl
  | cons m ms ih =>
    simp only [Team.push_reviews_go]
    cases hstep : Team.push_reviews_step o m with
    | mk m1 e1 =>
      have hcm : m1.core = m.core := by
        have := push_reviews_step_core o m
        rwa [hstep] at this
      cases e1 with
      | some err => simp [hcm]
      | none =>
        simp only []
        cases hgo : Team.push_reviews_go o ms with
        | mk ms1 e2 =>
          rw [hgo] at ih
          simp only [] at ih
          simp [hcm, ih]

theorem push_reviews_coreView (t : TeamState) :
    ((Team.push_reviews t).1).coreView = t.coreView := by
  have hc := push_reviews_go_core t.outputs.last t.members
  unfold Team.push_reviews
  cases hg : Team.push_reviews_go t.outputs.last t.members with
  | mk ms e =>
    rw [hg] at hc
    simp only [] at hc
    simp only []
    unfold TeamState.coreView
    simp [hc]

theorem fetch_updates_step_members (t : TeamState) (m : AgentState) :
    ((Team.fetch_updates_step t m).1).members = t.members ∧
    ((Team.fetch_updates_step t m).1).members_finished = t.members_finished := by
  unfold Team.fetch_updates_step
  repeat' split
  all_goals exact ⟨rfl, rfl⟩

theorem fetch_updates_go_members (ms : List AgentState) :
    ∀ t : TeamState,
    ((Team.fetch_updates_go ms t).1).members = t.members ∧
    ((Team.fetch_updates_go ms t).1).members_finished = t.members_finished := by
  induction ms with
  | nil => intro t; exact ⟨rfl, rfl⟩
  | cons m ms ih =>
    intro t
    simp only [Team.fetch_updates_go]
    cases hstep : Team.fetch_updates_step t m with
    | mk t1 e =>
      have hm := fetch_updates_step_members t m
      rw [hstep] at hm
      simp only [] at hm
      cases e with
      | some err => exact hm
      | none =>
        have h2 := ih t1
        exact ⟨h2.1.trans hm.1, h2.2.trans hm.2⟩

theorem fetch_updates_coreView (t : TeamState) :
    ((Team.fetch_updates t).1).coreView = t.coreView := by
  have h := fetch_updates_go_members t.members t
  unfold TeamState.coreView
  rw [show Team.fetch_updates t = Team.fetch_updates_go t.members t from rfl]
  rw [h.1, h.2]

theorem team_update_coreView (t : TeamState) :
    ((Team.update t).1).coreView = t.coreView := by
  unfold Team.update
  split
  · rename_i t1 err hf
    have := fetch_updates_coreView t
    rwa [hf] at this
  · rename_i t1 hf
    have h1 := fetch_updates_coreView t
    rw [hf] at h1
    simp only [] at h1
    split
    · rename_i t2 err hp
      have h2 := push_reviews_coreView t1
      rw [hp] at h2
      simp only [] at h2
      exact h2.trans h1
    · rename_i t2 hp
      have h2 := push_reviews_coreView t1
      rw [hp] at h2
      simp only [] at h2
      exact h2.trans h1

theorem team_update_p_coreView (p : ProjectState) (ti : Nat) :
    ((p.team_update ti).1).coreView = p.coreView := by
  unfold ProjectState.team_update
  cases hti : p.teams[ti]? with
  | none => rfl
  | some t =>
    simp only []
    cases hu : Team.update t with
    | mk t1 e =>
      have hcv : t1.coreView = t.coreView := by
        have := team_update_coreView t
        rwa [hu] at this
      simp only [ProjectState.setTeam, ProjectState.coreView]
      apply list_map_set_invariant
      rw [hti]
      simp [hcv]

theorem fetch_final_answers_teams (p : ProjectState) :
    (Project.fetch_final_answers p).teams = p.teams := by
  unfold Project.fetch_final_answers
  suffices h : ∀ (ts : List TeamState) (q : ProjectState),
      (ts.foldl (fun p t =>
        if t.final_answers.isEmpty then p
        else { p with final_answers := alSet p.final_answers t.name t.final_answers }) q).teams
        = q.teams by
    exact h p.teams p
  intro ts
  induction ts with
  | nil => intro q; rfl
  | cons t ts ih =>
    intro q
    simp only [List.foldl_cons]
    rw [ih]
    split
    · rfl
    · rfl

theorem update_team_step_teams (p : ProjectState) (i : Nat) :
    ((Project.update_team_step p i).1).teams =
      (match p.teams[i]? with
       | some t => p.teams.set i (Team.update t).1
       | Option.none => p.teams) := by
  unfold Project.update_team_step
  cases hti : p.teams[i]? with
  | none => rfl
  | some t =>
    simp only []
    cases hu : Team.update t with
    | mk t1 e =>
      cases e with
      | some err => rfl
      | none =>
        simp only []
        rw [fetch_final_answers_teams]
        repeat' split
        all_goals rfl

theorem update_team_step_coreView (p : ProjectState) (i : Nat) :
    ((Project.update_team_step p i).1).coreView = p.coreView := by
  have ht := update_team_step_teams p i
  unfold ProjectState.coreView
  rw [ht]
  cases hti : p.teams[i]? with
  | none => rfl
  | some t =>
    simp only []
    apply list_map_set_invariant
    rw [hti]
    simp [team_update_coreView t]

theorem update_go_coreView (l : List Nat) :
    ∀ p : ProjectState, ((Project.update_go p l).1).coreView = p.coreView := by
  induction l with
  | nil => intro p; rfl
  | cons i rest ih =>
    intro p
    simp only [Project.update_go]
    cases hstep : Project.update_team_step p i with
    | mk p1 e =>
      have h1 : p1.coreView = p.coreView := by
        have := update_team_step_coreView p i
        rwa [hstep] at this
      cases e with
      | some err => exact h1
      | none => exact (ih p1).trans h1

theorem project_update_coreView (p : ProjectState) :
    ((Project.update p).1).coreView = p.coreView := by
  unfold Project.update
  cases hg : Project.update_go p (List.range p.teams.length) with
  | mk p1 e =>
    have := update_go_coreView (List.range p.teams.length) p
    rw [hg] at this
    exact this

theorem setAgent_get (p : ProjectState) (ti mi : Nat) (b a : AgentState)
    (h : p.agent? ti mi = some a) :
    (p.setAgent ti mi b).agent? ti mi = some b := by
  unfold ProjectState.agent? at h
  unfold ProjectState.agent? ProjectState.setAgent ProjectState.setTeam TeamState.setMember
  cases hti : p.teams[ti]? with
  | none => rw [hti] at h; cases h
  | some t =>
    rw [hti] at h
    simp only [] at h
    have hlt : ti < p.teams.length := (List.getElem?_eq_some_iff.mp hti).1
    have hlt2 : mi < t.members.length := (List.getElem?_eq_some_iff.mp h).1
    simp only []
    rw [List.getElem?_set_self (by simpa using hlt)]
    simp only []
    rw [List.getElem?_set_self (by simpa using hlt2)]

theorem modifyAgent_get (p : ProjectState) (ti mi : Nat) (f : AgentState → AgentState)
    (a : AgentState) (h : p.agent? ti mi = some a) :
    (p.modifyAgent ti mi f).agent? ti mi = some (f a) := by
  unfold ProjectState.modifyAgent
  rw [h]
  exact setAgent_get p ti mi (f a) a h

theorem setAgent_coreView (p : ProjectState) (ti mi : Nat) (a b : AgentState)
    (hab : b.core = a.core) (hget : p.agent? ti mi = some a) :
    (p.setAgent ti mi b).coreView = p.coreView := by
  unfold ProjectState.agent? at hget
  unfold ProjectState.setAgent
  cases hti : p.teams[ti]? with
  | none => rfl
  | some t =>
    rw [hti] at hget
    simp only [] at hget
    simp only [ProjectState.setTeam, ProjectState.coreView]
    apply list_map_set_invariant
    rw [hti]
    simp only [Option.map_some']
    congr 1
    unfold TeamState.coreView TeamState.setMember
    simp only []
    congr 1
    refine (list_map_set_invariant AgentState.core t.members mi b ?_).symm
    rw [hget]
    simp [hab]

theorem modifyAgent_coreView (p : ProjectState) (ti mi : Nat)
    (f : AgentState → AgentState) (hf : ∀ a, (f a).core = a.core) :
    (p.modifyAgent ti mi f).coreView = p.coreView := by
  unfold ProjectState.modifyAgent
  cases hget : p.agent? ti mi with
  | none => rfl
  | some a =>
    simp only []
    exact setAgent_coreView p ti mi a (f a) (hf a) hget

theorem fetch_content_coreView (p : ProjectState) (ti mi : Nat) :
    (Agent.fetch_content_for_review p ti mi).coreView = p.coreView := by
  unfold Agent.fetch_content_for_review
  cases hti : p.teams[ti]? with
  | none => rfl
  | some t =>
    cases hget : p.agent? ti mi with
    | none => rfl
    | some a =>
      simp only []
      by_cases hrev : strContains a.name "_reviewer"
      · rw [if_pos hrev]
        cases halg : alGet t.outputs.last (strReplace a.name "_reviewer" "") with
        | none => rfl
        | some entry => exact setAgent_coreView p ti mi a _ rfl hget
      · rw [if_neg hrev]

theorem format_prompt_core (e : String → Except PyErr PVal) (a : AgentState) :
    ((Agent.format_prompt e a).1).core = a.core := by
  unfold Agent.format_prompt
  split
  · rfl
  · simp only []
    split
    · rfl
    · rfl

theorem format_prompt_at_coreView (env : Env) (p : ProjectState) (ti mi : Nat) :
    ((Agent.format_prompt_at env p ti mi).1).coreView = p.coreView := by
  unfold Agent.format_prompt_at
  cases hget : p.agent? ti mi with
  | none => rfl
  | some a =>
    simp only []
    cases hfp : Agent.format_prompt (env.evalRef p ti mi) a with
    | mk a1 e =>
      have hc : a1.core = a.core := by
        have := format_prompt_core (env.evalRef p ti mi) a
        rwa [hfp] at this
      simp only []
      exact setAgent_coreView p ti mi a a1 hc hget

/-- Extract per-team data from a `coreView` equality. -/
theorem coreView_team {p q : ProjectState} (h : q.coreView = p.coreView) (ti : Nat) :
    (q.teams[ti]?).map TeamState.coreView = (p.teams[ti]?).map TeamState.coreView := by
  have := congrArg (fun l => l[ti]?) h
  simpa [ProjectState.coreView, List.getElem?_map] using this

/-- Extract an agent's core fields from a `coreView` equality. -/
theorem coreView_agent {p q : ProjectState} (h : q.coreView = p.coreView) (ti mi : Nat) :
    ((q.agent? ti mi).map AgentState.core) = ((p.agent? ti mi).map AgentState.core) := by
  have hteam := coreView_team h ti
  unfold ProjectState.agent?
  cases hq : q.teams[ti]? with
  | none =>
    cases hp2 : p.teams[ti]? with
    | none => rfl
    | some tp => rw [hq, hp2] at hteam; simp at hteam
  | some tq =>
    cases hp2 : p.teams[ti]? with
    | none => rw [hq, hp2] at hteam; simp at hteam
    | some tp =>
      rw [hq, hp2] at hteam
      simp only [Option.map_some'] at hteam
      have hm : tq.members.map AgentState.core = tp.members.map AgentState.core := by
        have := congrArg Prod.snd (Option.some.inj hteam)
        simpa [TeamState.coreView] using this
      simp only []
      have := congrArg (fun l => l[mi]?) hm
      simpa [List.getElem?_map] using this

/-- Extract a team's `members_finished` from a `coreView` equality. -/
theorem coreView_members_finished {p q : ProjectState} (h : q.coreView = p.coreView)
    (ti : Nat) :
    (q.teams[ti]?).map (fun t => t.members_finished) =
      (p.teams[ti]?).map (fun t => t.members_finished) := by
  have hteam := coreView_team h ti
  cases hq : q.teams[ti]? with
  | none =>
    cases hp2 : p.teams[ti]? with
    | none => rfl
    | some tp => rw [hq, hp2] at hteam; simp at hteam
  | some tq =>
    cases hp2 : p.teams[ti]? with
    | none => rw [hq, hp2] at hteam; simp at hteam
    | some tp =>
      rw [hq, hp2] at hteam
      simp only [Option.map_some'] at hteam
      have := congrArg Prod.fst (Option.some.inj hteam)
      simpa [TeamState.coreView] using this

/-! ## Characterization of Agent.check_finished's latch branch -/

/-- The agent as mutated by `check_finished`'s latch branch:
`final_answer = outputs.last["message"]`, status `"finished"`,
`finished = True`. -/
def latched (a : AgentState) (outMsg : PVal) : AgentState :=
  { ({ a with final_answer := outMsg }).change_status "finished" with finished := true }

/-- The project state after `check_finished`'s latch branch: the agent is
latched and its name is appended to the owning team's `members_finished`. -/
def latch_state (p : ProjectState) (ti mi : Nat) (t : TeamState) (a : AgentState)
    (outMsg : PVal) : ProjectState :=
  p.setTeam ti
    { t.setMember mi (latched a outMsg) with
      members_finished :=
        (t.setMember mi (latched a outMsg)).members_finished ++ [(latched a outMsg).name] }

/-- `check_finished` either leaves the state untouched without reporting
`"True"`, or takes the latch branch. -/
theorem check_finished_spec (p : ProjectState) (ti mi : Nat) :
    ((Agent.check_finished p ti mi).1 = p ∧
      (Agent.check_finished p ti mi).2 ≠ Except.ok "True")
    ∨ (∃ t a kvs pr outMsg,
        p.teams[ti]? = some t ∧ t.members[mi]? = some a ∧
        a.inputs.last = some (PVal.pdict kvs) ∧ alGet kvs "pass_review" = some pr ∧
        pr.truthy = true ∧ a.outputs.last = some outMsg ∧
        Agent.check_finished p ti mi =
          (latch_state p ti mi t a outMsg, Except.ok "True")) := by
  unfold Agent.check_finished
  cases hti : p.teams[ti]? with
  | none => exact Or.inl ⟨rfl, by simp⟩
  | some t =>
    simp only []
    cases hmi : t.members[mi]? with
    | none => exact Or.inl ⟨rfl, by simp⟩
    | some a =>
      simp only []
      cases hil : a.inputs.last with
      | none => exact Or.inl ⟨rfl, by simp⟩
      | some msg =>
        simp only []
        cases msg with
        | pdict kvs =>
          simp only []
          cases hpr : alGet kvs "pass_review" with
          | none => exact Or.inl ⟨rfl, by simp⟩
          | some pr =>
            simp only []
            by_cases htr : pr.truthy = true
            · rw [if_pos htr]
              cases hol : a.outputs.last with
              | none => exact Or.inl ⟨rfl, by simp⟩
              | some outMsg =>
                exact Or.inr ⟨t, a, kvs, pr, outMsg, rfl, hmi, hil, hpr, htr, hol, rfl⟩
            · rw [if_neg htr]
              exact Or.inl ⟨rfl, by simp⟩
        | pnone => exact Or.inl ⟨rfl, by simp⟩
        | pbool b => exact Or.inl ⟨rfl, by simp⟩
        | pint n => exact Or.inl ⟨rfl, by simp⟩
        | pstr s => exact Or.inl ⟨rfl, by simp⟩
        | plist xs => exact Or.inl ⟨rfl, by simp⟩

/-- Direct computation of the latch branch under its guards. -/
theorem check_finished_latch (p : ProjectState) (ti mi : Nat) (t : TeamState)
    (a : AgentState) (kvs : List (String × PVal)) (pr outMsg : PVal)
    (hti : p.teams[ti]? = some t) (hmi : t.members[mi]? = some a)
    (hil : a.inputs.last = some (PVal.pdict kvs))
    (hpr : alGet kvs "pass_review" = some pr) (htr : pr.truthy = true)
    (hol : a.outputs.last = some outMsg) :
    Agent.check_finished p ti mi = (latch_state p ti mi t a outMsg, Except.ok "True") := by
  unfold Agent.check_finished
  rw [hti]
  simp only []
  rw [hmi]
  simp only []
  rw [hil]
  simp only []
  rw [hpr]
  simp only []
  rw [if_pos htr, hol]
  rfl

theorem latch_state_teams (p : ProjectState) (ti mi : Nat) (t : TeamState)
    (a : AgentState) (outMsg : PVal) (hti : p.teams[ti]? = some t) :
    (latch_state p ti mi t a outMsg).teams[ti]? =
      some { t.setMember mi (latched a outMsg) with
             members_finished := t.members_finished ++ [a.name] } := by
  have hlt : ti < p.teams.length := (List.getElem?_eq_some_iff.mp hti).1
  unfold latch_state ProjectState.setTeam
  simp only []
  rw [List.getElem?_set_self (by simpa using hlt)]
  rfl

theorem latch_state_agent (p : ProjectState) (ti mi : Nat) (t : TeamState)
    (a : AgentState) (outMsg : PVal)
    (hti : p.teams[ti]? = some t) (hmi : t.members[mi]? = some a) :
    (latch_state p ti mi t a outMsg).agent? ti mi = some (latched a outMsg) := by
  have hlt2 : mi < t.members.length := (List.getElem?_eq_some_iff.mp hmi).1
  unfold ProjectState.agent?
  rw [latch_state_teams p ti mi t a outMsg hti]
  simp only [TeamState.setMember]
  rw [List.getElem?_set_self (by simpa using hlt2)]

/-! ## Claim C10: members_finished grows on every passing check
(libs/agents.py 207-223, 243-284) -/

/-- C10.  `invoke` runs `check_finished` unconditionally, and
`check_finished` does not test the existing latch: on an already-finished
agent whose latest input still carries a truthy `pass_review`, every
`invoke()` appends the agent's name to the team's `members_finished`
again (and issues no model call).  Starting from a state whose
`members_finished` already contains the name, the list therefore holds
the name more than once: entries are not unique. -/
theorem invoke_finished_reappends_members_finished (env : Env) (p : ProjectState)
    (ti mi : Nat) (t : TeamState) (a : AgentState) (kvs : List (String × PVal))
    (pr outMsg : PVal)
    (hti : p.teams[ti]? = some t) (hmi : t.members[mi]? = some a)
    (_hfin : a.finished = true)
    (hil : a.inputs.last = some (PVal.pdict kvs))
    (hpr : alGet kvs "pass_review" = some pr) (htr : pr.truthy = true)
    (hol : a.outputs.last = some outMsg) :
    (Agent.invoke env p ti mi).2.1 = 0 ∧
    ((Agent.invoke env p ti mi).1.teams[ti]?).map (fun u => u.members_finished) =
      some (t.members_finished ++ [a.name]) := by
  have hcf := check_finished_latch p ti mi t a kvs pr outMsg hti hmi hil hpr htr hol
  have hagent := latch_state_agent p ti mi t a outMsg hti hmi
  have hteams := latch_state_teams p ti mi t a outMsg hti
  have hmf : ((latch_state p ti mi t a outMsg).teams[ti]?).map
      (fun u => u.members_finished) = some (t.members_finished ++ [a.name]) := by
    rw [hteams]
    rfl
  unfold Agent.invoke
  rw [hcf]
  simp only []
  rw [hagent]
  simp only []
  have hlf : (latched a outMsg).finished = true := rfl
  rw [hlf, if_pos rfl]
  cases htu : (latch_state p ti mi t a outMsg).team_update ti with
  | mk p2 e2 =>
    have hc2 : p2.coreView = (latch_state p ti mi t a outMsg).coreView := by
      have := team_update_p_coreView (latch_state p ti mi t a outMsg) ti
      rwa [htu] at this
    cases e2 with
    | some err =>
      simp only []
      refine ⟨trivial, ?_⟩
      rw [coreView_members_finished hc2 ti]
      exact hmf
    | none =>
      simp only []
      cases hpu : Project.update p2 with
      | mk p3 e3 =>
        have hc3 : p3.coreView = p2.coreView := by
          have := project_update_coreView p2
          rwa [hpu] at this
        simp only []
        refine ⟨trivial, ?_⟩
        rw [coreView_members_finished (hc3.trans hc2) ti]
        exact hmf

/-- A finished solo agent whose latest input still passes review. -/
def agentDone : AgentState :=
  { agentSolo with
    finished := true
    inputs := MessageLog.init.add_message (PVal.pdict [("pass_review", PVal.pbool true)])
    outputs := MessageLog.init.add_message (PVal.pstr "done") }

/-- Its team, with the agent's name already recorded once. -/
def teamDone : TeamState :=
  { teamSolo with members := [agentDone], members_finished := ["solo"] }

def projDone : ProjectState := { projSolo with teams := [teamDone] }

/-- C10 witness: a finished solo agent whose name is already recorded;
one more `invoke` records it a second time, so `members_finished` holds
the name twice. -/
theorem invoke_finished_reappends_members_finished_witness :
    ((Agent.invoke envOk projDone 0 0).1.teams[0]?).map
        (fun u => u.members_finished) = some ["solo", "solo"] :=
  (invoke_finished_reappends_members_finished envOk projDone 0 0 teamDone agentDone
    [("pass_review", PVal.pbool true)] (PVal.pbool true) (PVal.pstr "done")
    rfl rfl rfl rfl rfl rfl rfl).2

/-! ## Claim C2: invoke on a finished agent (libs/agents.py 243-284) -/

/-- Unpack a `core` equality into the five preserved fields. -/
theorem agent_core_fields {b a : AgentState} (h : b.core = a.core) :
    b.name = a.name ∧ b.needs_review = a.needs_review ∧ b.finished = a.finished ∧
    b.outputs = a.outputs ∧ b.final_answer = a.final_answer := by
  unfold AgentState.core at h
  exact ⟨congrArg (fun x => x.1) h, congrArg (fun x => x.2.1) h,
    congrArg (fun x => x.2.2.1) h, congrArg (fun x => x.2.2.2.1) h,
    congrArg (fun x => x.2.2.2.2) h⟩

/-- An agent survives a core-preserving step with its core fields intact. -/
theorem coreView_agent_some {p q : ProjectState} (h : q.coreView = p.coreView)
    {ti mi : Nat} {a : AgentState} (ha : p.agent? ti mi = some a) :
    ∃ b, q.agent? ti mi = some b ∧ b.core = a.core := by
  have hc := coreView_agent h ti mi
  rw [ha] at hc
  cases hq : q.agent? ti mi with
  | none => rw [hq] at hc; simp at hc
  | some b =>
    rw [hq] at hc
    simp only [Option.map_some'] at hc
    exact ⟨b, rfl, Option.some.inj hc⟩

/-- The surviving agent still reports the same final answer. -/
theorem coreView_final_answer {p q : ProjectState} (h : q.coreView = p.coreView)
    {ti mi : Nat} {a : AgentState} (ha : p.agent? ti mi = some a) :
    (q.agent? ti mi).map (fun x => x.final_answer) = some a.final_answer := by
  obtain ⟨b, hb, hcore⟩ := coreView_agent_some h ha
  rw [hb]
  simp only [Option.map_some']
  rw [(agent_core_fields hcore).2.2.2.2]

/-- C2.  On an already-finished agent, `invoke` issues no model call and
leaves `final_answer` unchanged.  The `hconsist` hypothesis is the
reachable-state invariant that the stored final answer is the latest
output's payload (every latch writes `final_answer` from `outputs.last`,
and a finished agent appends no further outputs), which rules out the
value-changing reassignment in `check_finished`'s latch branch. -/
theorem invoke_idempotent_on_finished (env : Env) (p : ProjectState) (ti mi : Nat)
    (a : AgentState) (ha : p.agent? ti mi = some a) (hfin : a.finished = true)
    (hconsist : a.outputs.last = Option.none ∨ a.outputs.last = some a.final_answer) :
    (Agent.invoke env p ti mi).2.1 = 0 ∧
    ((Agent.invoke env p ti mi).1.agent? ti mi).map (fun x => x.final_answer) =
      some a.final_answer := by
  rcases check_finished_spec p ti mi with ⟨hstate, hne⟩ |
    ⟨t, a2, kvs, pr, outMsg, hti, hmi, hil, hpr, htr, hol, hcf⟩
  · cases hcf : Agent.check_finished p ti mi with
    | mk p1 r =>
      rw [hcf] at hstate
      simp only [] at hstate
      subst hstate
      unfold Agent.invoke
      rw [hcf]
      cases r with
      | error e =>
        refine ⟨rfl, ?_⟩
        rw [ha]
        rfl
      | ok s =>
        simp only []
        rw [ha]
        simp only []
        rw [hfin, if_pos rfl]
        cases htu : p1.team_update ti with
        | mk p2 e2 =>
          have hc2 : p2.coreView = p1.coreView := by
            have := team_update_p_coreView p1 ti
            rwa [htu] at this
          cases e2 with
          | some err =>
            simp only []
            exact ⟨trivial, coreView_final_answer hc2 ha⟩
          | none =>
            simp only []
            cases hpu : Project.update p2 with
            | mk p3 e3 =>
              have hc3 : p3.coreView = p2.coreView := by
                have := project_update_coreView p2
                rwa [hpu] at this
              simp only []
              exact ⟨trivial, coreView_final_answer (hc3.trans hc2) ha⟩
  · have ha2 : a2 = a := by
      unfold ProjectState.agent? at ha
      rw [hti] at ha
      simp only [] at ha
      rw [hmi] at ha
      exact Option.some.inj ha
    subst ha2
    have hout : outMsg = a2.final_answer := by
      rcases hconsist with h | h
      · rw [hol] at h; cases h
      · rw [hol] at h; exact Option.some.inj h
    have hla := latch_state_agent p ti mi t a2 outMsg hti hmi
    unfold Agent.invoke
    rw [hcf]
    simp only []
    rw [hla]
    simp only []
    have hlf : (latched a2 outMsg).finished = true := rfl
    rw [hlf, if_pos rfl]
    cases htu : (latch_state p ti mi t a2 outMsg).team_update ti with
    | mk p2 e2 =>
      have hc2 : p2.coreView = (latch_state p ti mi t a2 outMsg).coreView := by
        have := team_update_p_coreView (latch_state p ti mi t a2 outMsg) ti
        rwa [htu] at this
      have hfa : ∀ {q : ProjectState}, q.coreView = (latch_state p ti mi t a2 outMsg).coreView →
          (q.agent? ti mi).map (fun x => x.final_answer) = some a2.final_answer := by
        intro q hq
        have := coreView_final_answer hq hla
        rwa [show (latched a2 outMsg).final_answer = outMsg from rfl, hout] at this
      cases e2 with
      | some err =>
        simp only []
        exact ⟨trivial, hfa hc2⟩
      | none =>
        simp only []
        cases hpu : Project.update p2 with
        | mk p3 e3 =>
          have hc3 : p3.coreView = p2.coreView := by
            have := project_update_coreView p2
            rwa [hpu] at this
          simp only []
          exact ⟨trivial, hfa (hc3.trans hc2)⟩

/-- The finished solo agent with its final answer cached consistently. -/
def agentDone2 : AgentState := { agentDone with final_answer := PVal.pstr "done" }

def projDone2 : ProjectState :=
  { projDone with teams := [{ teamDone with members := [agentDone2] }] }

/-- C2 witness: one more `invoke` on the finished solo agent issues no
model call and keeps the cached final answer. -/
theorem invoke_idempotent_on_finished_witness :
    (Agent.invoke envOk projDone2 0 0).2.1 = 0 ∧
    ((Agent.invoke envOk projDone2 0 0).1.agent? 0 0).map (fun x => x.final_answer) =
      some agentDone2.final_answer :=
  invoke_idempotent_on_finished envOk projDone2 0 0 agentDone2 rfl rfl (Or.inr rfl)

/-! ## Claim C1: one successful invoke on a no-review agent
(libs/agents.py 243-284) -/

/-- Computing the `needs_review = False` latch inside `invoke`: with no
review required and the response just appended, the agent captures
`outputs.last["message"]` as its final answer and latches `finished`. -/
theorem invoke_latch_value (a8 : AgentState) (m : PVal)
    (hnr8 : a8.needs_review = false) (hol8 : a8.outputs.last = some m) :
    (fun a =>
      if a.needs_review then a
      else
        match a.outputs.last with
        | some m2 =>
          let a2 := { a with final_answer := m2 }
          let a2 := a2.change_status "finished"
          { a2 with finished := true }
        | Option.none => a) a8 = latched a8 m := by
  simp only []
  rw [if_neg (by rw [hnr8]; simp), hol8]
  rfl

/-- C1.  For an agent whose config does not require review, one
successful `invoke()` — the model call was issued (`calls = 1`) and
nothing raised (`err = none`) — leaves the agent latched: `finished` is
true, exactly one entry was appended to `outputs` during the call, and
`final_answer` is that most recent entry. -/
theorem invoke_no_review_latches (env : Env) (p : ProjectState) (ti mi : Nat)
    (a : AgentState) (ha : p.agent? ti mi = some a) (hnr : a.needs_review = false)
    (hcall : (Agent.invoke env p ti mi).2.1 = 1)
    (hok : (Agent.invoke env p ti mi).2.2 = Option.none) :
    ∃ b m, (Agent.invoke env p ti mi).1.agent? ti mi = some b ∧
      b.finished = true ∧
      b.outputs.history = a.outputs.history ++ [m] ∧
      b.final_answer = m := by
  unfold Agent.invoke at hcall hok ⊢
  rcases check_finished_spec p ti mi with ⟨hstate, hne⟩ |
    ⟨t, a2, kvs, pr, outMsg, hti, hmi, hil, hpr, htr, hol, hcf⟩
  case inr =>
    exfalso
    have hla := latch_state_agent p ti mi t a2 outMsg hti hmi
    rw [hcf] at hcall
    simp only [] at hcall
    rw [hla] at hcall
    simp only [] at hcall
    rw [show (latched a2 outMsg).finished = true from rfl, if_pos rfl] at hcall
    split at hcall
    · simp at hcall
    · rename_i p20 heq20
      cases hq : Project.update p20 with
      | mk p21 e21 => rw [hq] at hcall; simp at hcall
  case inl =>
    cases hcf : Agent.check_finished p ti mi with
    | mk p1 r =>
      rw [hcf] at hstate hcall hok
      simp only [] at hstate hcall hok ⊢
      subst hstate
      cases r with
      | error e => simp at hok
      | ok s =>
        simp only [] at hcall hok ⊢
        rw [ha] at hcall hok ⊢
        simp only [] at hcall hok ⊢
        by_cases hfin2 : a.finished = true
        · exfalso
          rw [hfin2, if_pos rfl] at hcall
          split at hcall
          · simp at hcall
          · rename_i p20 heq20
            cases hq : Project.update p20 with
            | mk p21 e21 => rw [hq] at hcall; simp at hcall
        · have hfin3 : a.finished = false := by
            cases hfb : a.finished
            · rfl
            · exact absurd hfb hfin2
          rw [hfin3] at hcall hok ⊢
          simp only [Bool.false_eq_true, if_false] at hcall hok ⊢
          split at hok
          · simp at hok
          · rename_i p2 heq2
            have hc2 : p2.coreView = p1.coreView := by
              have := team_update_p_coreView p1 ti
              rwa [heq2] at this
            split at hok
            · simp at hok
            · rename_i p3 heq3
              have hc3 : p3.coreView = p2.coreView := by
                have := project_update_coreView p2
                rwa [heq3] at this
              split at hok
              · simp at hok
              · rename_i p6 heq6
                have hc6 : p6.coreView = p1.coreView := by
                  have h4 := fetch_content_coreView p3 ti mi
                  have h5 := modifyAgent_coreView (Agent.fetch_content_for_review p3 ti mi)
                    ti mi (fun x => x.change_status "invoked") (fun _ => rfl)
                  have hfmt := format_prompt_at_coreView env
                    ((Agent.fetch_content_for_review p3 ti mi).modifyAgent ti mi
                      (fun x => x.change_status "invoked")) ti mi
                  rw [heq6] at hfmt
                  exact hfmt.trans (h5.trans (h4.trans (hc3.trans hc2)))
                obtain ⟨a6, ha6, hcore6⟩ := coreView_agent_some hc6 ha
                have hfields6 := agent_core_fields hcore6
                split at hok
                · simp at hok
                · rename_i fr heqm
                  split at hok
                  · simp at hok
                  · rename_i expected heqs
                    split at hok
                    · simp at hok
                    · rename_i tok heqt
                      -- the three writes: append the parsed message, set the
                      -- "responded" status, and take the no-review latch
                      have h7 := modifyAgent_get p6 ti mi
                        (fun x =>
                          { x with
                            outputs :=
                              x.outputs.add_message
                                (parse_agent_response env.loads fr.content expected) })
                        a6 ha6
                      have h8 := modifyAgent_get _ ti mi
                        (fun x => x.change_status "responded") _ h7
                      have h9 := modifyAgent_get _ ti mi
                        (fun x =>
                          if x.needs_review then x
                          else
                            match x.outputs.last with
                            | some m2 =>
                              let x2 := { x with final_answer := m2 }
                              let x2 := x2.change_status "finished"
                              { x2 with finished := true }
                            | Option.none => x) _ h8
                      rw [invoke_latch_value _ (parse_agent_response env.loads fr.content expected)
                        (by simpa [AgentState.change_status] using hfields6.2.1.trans hnr) rfl] at h9
                      split at hok
                      · simp at hok
                      · rename_i p10 heqf
                        have hc10 := team_update_p_coreView
                          (((p6.modifyAgent ti mi
                              (fun x =>
                                { x with
                                  outputs :=
                                    x.outputs.add_message
                                      (parse_agent_response env.loads fr.content expected) })).modifyAgent
                            ti mi (fun x => x.change_status "responded")).modifyAgent ti mi
                            (fun x =>
                              if x.needs_review then x
                              else
                                match x.outputs.last with
                                | some m2 =>
                                  let x2 := { x with final_answer := m2 }
                                  let x2 := x2.change_status "finished"
                                  { x2 with finished := true }
                                | Option.none => x)) ti
                        rw [heqf] at hc10
                        cases hpu2 : Project.update p10 with
                        | mk p11 e11 =>
                          have hc11 : p11.coreView = p10.coreView := by
                            have := project_update_coreView p10
                            rwa [hpu2] at this
                          obtain ⟨b, hb, hcoreb⟩ :=
                            coreView_agent_some (hc11.trans hc10) h9
                          have hfieldsb := agent_core_fields hcoreb
                          refine ⟨b, parse_agent_response env.loads fr.content expected,
                            hb, ?_, ?_, ?_⟩
                          · rw [hfieldsb.2.2.1]
                            rfl
                          · rw [hfieldsb.2.2.2.1]
                            show (a6.outputs.add_message _).history = _
                            rw [show a6.outputs = a.outputs from hfields6.2.2.2.1]
                            rfl
                          · rw [hfieldsb.2.2.2.2]
                            rfl

/-- C1 witness: invoking the solo no-review agent once on the fixture
project issues one model call, raises nothing, latches `finished` and
stores the parsed response as the final answer. -/
theorem invoke_no_review_latches_witness :
    ∃ b m, (Agent.invoke envOk projSolo 0 0).1.agent? 0 0 = some b ∧
      b.finished = true ∧
      b.outputs.history = agentSolo.outputs.history ++ [m] ∧
      b.final_answer = m :=
  invoke_no_review_latches envOk projSolo 0 0 agentSolo rfl rfl (by decide) (by decide)

end Dawgpyl
